import Mathlib

/-! # CliMenu: a shallow embedding of `main.go`

The launcher reads a menu description, draws a boxed menu, reads one line,
and either quits, reports an invalid option, or runs the shell command of the
selected item.  Everything the Go program writes or does to its environment is
recorded here as a list of `Effect`s; everything the environment answers
(input lines, the outcome of a child process) is an explicit argument.

Conventions of the embedding.

* In the renderer and the input loop a Go `string` is a Lean `String`: the
  text it holds, as UTF-8.  Every string the running program holds in its
  `Menu` is the result of `json.Unmarshal`, which is valid UTF-8.  `len` is the
  number of bytes of that encoding, as in Go.
* In the loader (`saveMenu`, `loadMenu`, `encoding/json`) a Go `string` is the
  list of its bytes, valid UTF-8 or not, and `Menu.toGo` gives the bytes of a
  menu of texts.
* A Go `int` is a Lean `Int`; the only arithmetic on it in this program is on
  string lengths and list lengths, which cannot overflow.
* `strconv.Atoi`, `fmt.Printf` and `encoding/json` belong to the Go standard
  library; the parts of them that `main.go` calls are modelled after the
  library source and documentation.
-/

namespace CliMenu

/-! ## Data model (`main.go` lines 14-29) -/

/-- A menu item: label, colour name and shell command (`type MenuItem struct`). -/
structure MenuItem where
  Label : String
  Color : String
  Command : String
  deriving DecidableEq, Repr

/-- The anonymous struct of the `Title` field of `Menu`. -/
structure MenuTitle where
  Label : String
  Color : String
  deriving DecidableEq, Repr

/-- The configuration file's structure (`type Menu struct`). -/
structure Menu where
  Title : MenuTitle
  Items : List MenuItem
  deriving DecidableEq, Repr

/-! ## Go builtins and `fmt` verbs used by the program -/

/-- Go's builtin `len` on a string: the number of bytes. -/
def len (s : String) : Int := (s.utf8ByteSize : Int)

/-- A run of `n` blanks. -/
def spaces (n : Nat) : String := String.mk (List.replicate n ' ')

/-- The verb `%*s` of `fmt.Printf` applied to a width and a string.  A negative
width sets the minus flag and pads on the right; the padding counts runes; a
width beyond a million in absolute value is rejected with `%!(BADWIDTH)` and
the string is then printed unpadded. -/
def fmtStarS (width : Int) (s : String) : String :=
  if width > 1000000 ∨ width < -1000000 then "%!(BADWIDTH)" ++ s
  else if width < 0 then s ++ spaces ((-width).toNat - s.length)
  else spaces (width.toNat - s.length) ++ s

/-- The verb `%d` of `fmt.Printf` applied to an integer. -/
def fmtD (n : Int) : String :=
  if n < 0 then "-" ++ toString n.natAbs else toString n.natAbs

/-- Go's conversion `string(i)` of an integer: the UTF-8 text of the code point
`i`, and U+FFFD when `i` is not a valid code point. -/
def stringOfInt (i : Int) : String :=
  if 0 ≤ i ∧ i.toNat.isValidChar then String.singleton (Char.ofNat i.toNat)
  else "\uFFFD"

/-! ## Colours (`main.go` lines 194-220) -/

/-- The function `getColorCode`: the SGR code of a colour name. -/
def getColorCode (color : String) : String :=
  match color with
  | "black" => "30"
  | "red" => "31"
  | "green" => "32"
  | "yellow" => "33"
  | "blue" => "34"
  | "magenta" => "35"
  | "cyan" => "36"
  | "white" => "37"
  | _ => "0"

/-- The function `printColoredText`: the text it writes to standard output,
`fmt.Printf("\033[%sm%s\033[0m", colorCode, text)`. -/
def printColoredText (color text : String) : String :=
  let colorCode := getColorCode color
  "\x1b[" ++ colorCode ++ "m" ++ text ++ "\x1b[0m"

/-! ## Renderer (`main.go` lines 222-243) -/

/-- A horizontal bar of the box: the character `c`, 52 times. -/
def bar (c : Char) : String := String.mk (List.replicate 52 c)

/-- The top border written by `printMenu` (line 227): the left corner, 52
double bars, the right corner. -/
def topBorder : String := "╔" ++ bar '═' ++ "╗\n"

/-- The separator written by `printMenu` under the title and between rows
(lines 231 and 238): 52 single bars between the two tees. -/
def separator : String := "╟" ++ bar '─' ++ "╢\n"

/-- The bottom border written by `printMenu` (line 242). -/
def bottomBorder : String := "╚" ++ bar '═' ++ "╝\n"

/-- The title line of `printMenu` (lines 225-230); integer division of Go
truncates toward zero. -/
def titleLine (title titleColor : String) : String :=
  let padding : Int := Int.tdiv (51 - len title) 2
  "║" ++ fmtStarS padding " "
    ++ printColoredText titleColor title
    ++ fmtStarS (51 - padding - len title + 1) " " ++ "║\n"

/-- One row of the menu: the body of the `for i, item := range items` loop of
`printMenu` (lines 233-239), `n` being `len(items)`. -/
def itemRow (n : Nat) (i : Nat) (item : MenuItem) : String :=
  let colorCode := item.Color
  "╟─── " ++ fmtD ((i : Int) + 1) ++ ". "
    ++ printColoredText colorCode item.Label
    ++ fmtStarS (45 - len item.Label) " " ++ "║\n"
    ++ (if (i : Int) < (n : Int) - 1 then separator else "")

/-- The rows written by the loop of `printMenu` from index `i` on. -/
def itemRows (n : Nat) : Nat → List MenuItem → String
  | _, [] => ""
  | i, item :: rest => itemRow n i item ++ itemRows n (i + 1) rest

/-- The function `printMenu`: everything it writes to standard output. -/
def printMenu (title titleColor : String) (items : List MenuItem) : String :=
  topBorder ++ titleLine title titleColor ++ separator
    ++ itemRows items.length 0 items ++ bottomBorder

/-! ## `strconv.Atoi` (Go standard library)

Go reads the string byte by byte.  A character outside ASCII is encoded by
bytes that are all at least `0x80`, none of which is a digit or a sign, so
testing the characters one by one gives the same result as testing the bytes.
-/

/-- The size of Go's `int` on the platform (`strconv.IntSize`). -/
inductive IntSize where
  | bits32
  | bits64
  deriving DecidableEq, Repr

/-- The number of bits of `int`. -/
def IntSize.bits : IntSize → Nat
  | .bits32 => 32
  | .bits64 => 64

/-- The two errors of `strconv`: `ErrSyntax` and `ErrRange`. -/
inductive NumError where
  | ErrSyntax
  | ErrRange
  deriving DecidableEq, Repr

/-- Whether a character is one of the bytes `'0'` to `'9'`. -/
def isDigit (c : Char) : Bool := 48 ≤ c.toNat && c.toNat ≤ 57

/-- The digit loop of the fast path of `Atoi`: `n = n*10 + int(ch)` for each
byte, a syntax error at the first byte that is not a digit. -/
def atoiFast : List Char → Nat → Except NumError Nat
  | [], n => .ok n
  | ch :: rest, n =>
    if isDigit ch then atoiFast rest (n * 10 + (ch.toNat - 48))
    else .error .ErrSyntax

/-- The digit loop of `strconv.ParseUint(s, 10, bitSize)` on a 64 bit
accumulator `n`.  A letter is a digit of value at least ten and is refused
like any other byte (`d >= byte(base)`), so both cases give `ErrSyntax`. -/
def parseUintLoop (maxVal : Nat) : List Char → Nat → Except NumError Nat
  | [], n => .ok n
  | c :: rest, n =>
    if isDigit c then
      let d := c.toNat - 48
      -- cutoff is maxUint64/10 + 1
      if n ≥ (2 ^ 64 - 1) / 10 + 1 then .error .ErrRange
      else
        let n10 := (n * 10) % 2 ^ 64
        let n1 := (n10 + d) % 2 ^ 64
        if n1 < n10 ∨ n1 > maxVal then .error .ErrRange
        else parseUintLoop maxVal rest n1
    else .error .ErrSyntax

/-- The function `strconv.ParseUint(s, 10, bitSize)` with `bitSize` the size
of `int`. -/
def ParseUint (sz : IntSize) (s : List Char) : Except NumError Nat :=
  if s = [] then .error .ErrSyntax
  else parseUintLoop (2 ^ sz.bits - 1) s 0

/-- The function `strconv.ParseInt(s, 10, 0)`: an optional sign, then
`ParseUint`, then the range check against `1 << (bitSize-1)`.  A range error
of `ParseUint` has `un = maxVal` and is reported as a range error here too. -/
def ParseInt (sz : IntSize) (s : List Char) : Except NumError Int :=
  match s with
  | [] => .error .ErrSyntax
  | c0 :: rest =>
    let neg := c0 = '-'
    let body := if c0 = '+' ∨ c0 = '-' then rest else s
    match ParseUint sz body with
    | .error e => .error e
    | .ok un =>
      let cutoff : Nat := 2 ^ (sz.bits - 1)
      if ¬ neg ∧ un ≥ cutoff then .error .ErrRange
      else if neg ∧ un > cutoff then .error .ErrRange
      else if neg then .ok (-(un : Int)) else .ok (un : Int)

/-- The fast path of `strconv.Atoi` for strings short enough to fit `int`:
an optional sign, then the digit loop.  Go tests `len(s) < 1` only after it
removed a sign; without a sign the string is not empty and the test does not
fire, so it is made here on both paths. -/
def atoiSmall (s : List Char) : Except NumError Int :=
  match s with
  | [] => .error .ErrSyntax
  | c0 :: rest =>
    let body := if c0 = '-' ∨ c0 = '+' then rest else s
    if body.length < 1 then .error .ErrSyntax
    else
      match atoiFast body 0 with
      | .error e => .error e
      | .ok n => if c0 = '-' then .ok (-(n : Int)) else .ok (n : Int)

/-- The function `strconv.Atoi`: the fast path for short strings and
`ParseInt(s, 10, 0)` otherwise. -/
def Atoi (sz : IntSize) (s : String) : Except NumError Int :=
  let sLen := len s
  if (sz = .bits32 ∧ 0 < sLen ∧ sLen < 10) ∨ (sz = .bits64 ∧ 0 < sLen ∧ sLen < 19) then
    atoiSmall s.data
  else ParseInt sz s.data

/-! ## Input loop and executor (`main.go` lines 87-133, 245-259) -/

/-- What the program does to its environment, in order. -/
inductive Effect where
  /-- writes text to standard output. -/
  | stdout (text : String)
  /-- runs `clear` (`clearScreen`). -/
  | clearScreen
  /-- calls `reader.ReadLine()` on standard input. -/
  | readLine
  /-- runs `bash -c command` with inherited output streams (`runCommand`). -/
  | bash (command : String)
  /-- sleeps for a number of seconds. -/
  | sleep (seconds : Nat)
  /-- leaves the process with a status (`os.Exit`). -/
  | exit (status : Nat)
  /-- the run-time panic of an index out of range. -/
  | indexPanic
  deriving DecidableEq, Repr

/-- The function `runCommand`: the command is handed to bash; `failure` is the
error of `cmd.Run()`, if any (a non-zero exit or a failure to start). -/
def runCommand (command : String) (failure : Option String) : List Effect :=
  .bash command ::
    (match failure with
     | some err => [.stdout ("Error running command: " ++ err ++ "\n")]
     | none => [])

/-- The branch of the loop body an iteration took. -/
inductive Branch where
  /-- the read of the line failed and the process exited with status 1. -/
  | readFailed
  /-- the line was `q`. -/
  | quit
  /-- the invalid-option branch (lines 112-117). -/
  | invalid
  /-- an item was run; `idx` is the index used on `menu.Items`. -/
  | dispatch (idx : Int)
  /-- the index was out of range and the program panicked. -/
  | outOfRange (idx : Int)
  deriving DecidableEq, Repr

/-- The variables of `main` that live across iterations. -/
structure LoopState where
  menu : Menu
  quit : Bool
  deriving DecidableEq, Repr

/-- The result of one iteration: the branch taken, the effects in order, and
the variables afterwards. -/
structure Iteration where
  branch : Branch
  effects : List Effect
  next : LoopState
  deriving DecidableEq, Repr

/-- The effects every iteration starts with (lines 95-100): clear, draw the
menu, prompt, read a line. -/
def drawAndPrompt (menu : Menu) : List Effect :=
  [ .clearScreen,
    .stdout (printMenu menu.Title.Label menu.Title.Color menu.Items),
    .stdout ("Select an option (1 - " ++ fmtD menu.Items.length ++ ", or q to quit): "),
    .readLine ]

/-- The dispatch of lines 124-130 for an index `idx`; `failure` is the error
of the child process, if any. -/
def dispatch (menu : Menu) (idx : Int) (failure : String → Option String) :
    Branch × List Effect :=
  if idx < 0 then (.outOfRange idx, [.indexPanic])
  else
    match menu.Items.get? idx.toNat with
    | none => (.outOfRange idx, [.indexPanic])
    | some item =>
      (.dispatch idx,
        [.clearScreen, .stdout (printColoredText item.Color item.Label), .stdout "\n"]
          ++ runCommand item.Command (failure item.Command)
          ++ [.stdout ("The command [" ++ item.Command ++ "] has finshed executing\n"),
              .sleep 5])

/-- One iteration of the loop `for !quit` (lines 94-131).  `read` is what
`reader.ReadLine()` returns, the line or an error; `failure` gives the error
of `cmd.Run()` for the command, if it fails. -/
def loopBody (sz : IntSize) (menu : Menu) (read : Except String String)
    (failure : String → Option String) : Iteration :=
  match read with
  | .error err =>
    ⟨.readFailed, drawAndPrompt menu ++ [.stdout (err ++ "\n"), .exit 1], ⟨menu, false⟩⟩
  | .ok input =>
    if input = "q" then ⟨.quit, drawAndPrompt menu, ⟨menu, true⟩⟩
    else
      let invalid : Iteration :=
        ⟨.invalid,
          drawAndPrompt menu ++
            [.stdout (">" ++ stringOfInt menu.Items.length ++ "\n"),
             .stdout "Invalid option. Please try again.\n",
             .sleep 2],
          ⟨menu, false⟩⟩
      match Atoi sz input with
      | .error _ => invalid
      | .ok option =>
        if option < 1 ∨ option > menu.Items.length then invalid
        else
          let idx := option - 1
          let r := dispatch menu idx failure
          ⟨r.1, drawAndPrompt menu ++ r.2, ⟨menu, false⟩⟩

/-- The loop `for !quit` followed by the last `clearScreen()` (lines 93-132).
The list holds the lines that the successive calls of `ReadLine` return; when
it runs out, `ReadLine` fails with `EOF`.  `failure k` answers for the command
run in the iteration, counted from the current one. -/
def mainLoop (sz : IntSize) (menu : Menu) :
    List String → (Nat → String → Option String) → List Effect
  | [], failure =>
    (loopBody sz menu (.error "EOF") (failure 0)).effects
  | line :: rest, failure =>
    let it := loopBody sz menu (.ok line) (failure 0)
    match it.branch with
    | .quit => it.effects ++ [.clearScreen]
    | .readFailed => it.effects
    | .outOfRange _ => it.effects
    | _ => it.effects ++ mainLoop sz it.next.menu rest (fun k => failure (k + 1))

/-- The part of `main` after a successful `loadMenu` (lines 87-133): the item
cap, then the loop. -/
def runMenu (sz : IntSize) (menu : Menu) (stdin : List String)
    (failure : Nat → String → Option String) : List Effect :=
  if (menu.Items.length : Int) > 10 then
    [ .stdout "Maximum limit of 10 menu items exceeded.\n",
      .stdout "Please reduce the number of items in the menu.\n" ]
  else mainLoop sz menu stdin failure

/-- The literal `exampleMenu` of `createExampleMenu` (lines 137-152). -/
def exampleMenu : Menu :=
  ⟨⟨"My Menu", "blue"⟩, [⟨"Option 1", "green", "ls -lha"⟩]⟩

/-! ## Go strings as bytes

`encoding/json` treats the bytes of a string that are not valid UTF-8 in a way
of its own, so the loader keeps every Go `string` as the bytes it is.  A byte is
a natural number; a number above `0xF4` is handled like the bytes `0xF5` to
`0xFF`, which start no UTF-8 sequence.
-/

/-- The bytes of an ASCII text. -/
def ascii (s : String) : List Nat := s.data.map Char.toNat

/-- The function `utf8.EncodeRune` of Go: the UTF-8 bytes of a code point; a
surrogate or a number beyond U+10FFFF is written as U+FFFD. -/
def encodeRune (r : Nat) : List Nat :=
  if r ≤ 0x7F then [r]
  else if r ≤ 0x7FF then [0xC0 + r / 64, 0x80 + r % 64]
  else if r > 0x10FFFF ∨ (0xD800 ≤ r ∧ r ≤ 0xDFFF) then [0xEF, 0xBF, 0xBD]
  else if r ≤ 0xFFFF then [0xE0 + r / 4096, 0x80 + r / 64 % 64, 0x80 + r % 64]
  else [0xF0 + r / 262144, 0x80 + r / 4096 % 64, 0x80 + r / 64 % 64, 0x80 + r % 64]

/-- The function `utf8.DecodeRune` of Go: the code point at the front of the
bytes and the number of bytes it takes; bytes that start no valid sequence give
`(0xFFFD, 1)`, no bytes give `(0xFFFD, 0)`.  The tables `first` and
`acceptRanges` are written out: the lead byte gives the length and the range of
the second byte, the later bytes lie between `0x80` and `0xBF`; a sequence cut
short by the end of the bytes is invalid like one with a wrong byte. -/
def decodeRune : List Nat → Nat × Nat
  | [] => (0xFFFD, 0)
  | p0 :: rest =>
    if p0 < 0x80 then (p0, 1)
    else if p0 < 0xC2 ∨ 0xF4 < p0 then (0xFFFD, 1)
    else if p0 < 0xE0 then
      match rest with
      | b1 :: _ =>
        if 0x80 ≤ b1 ∧ b1 ≤ 0xBF then (p0 % 32 * 64 + b1 % 64, 2) else (0xFFFD, 1)
      | _ => (0xFFFD, 1)
    else if p0 < 0xF0 then
      match rest with
      | b1 :: b2 :: _ =>
        if (if p0 = 0xE0 then 0xA0 else 0x80) ≤ b1 ∧ b1 ≤ (if p0 = 0xED then 0x9F else 0xBF)
            ∧ 0x80 ≤ b2 ∧ b2 ≤ 0xBF then
          (p0 % 16 * 4096 + b1 % 64 * 64 + b2 % 64, 3)
        else (0xFFFD, 1)
      | _ => (0xFFFD, 1)
    else
      match rest with
      | b1 :: b2 :: b3 :: _ =>
        if (if p0 = 0xF0 then 0x90 else 0x80) ≤ b1 ∧ b1 ≤ (if p0 = 0xF4 then 0x8F else 0xBF)
            ∧ 0x80 ≤ b2 ∧ b2 ≤ 0xBF ∧ 0x80 ≤ b3 ∧ b3 ≤ 0xBF then
          (p0 % 8 * 262144 + b1 % 64 * 4096 + b2 % 64 * 64 + b3 % 64, 4)
        else (0xFFFD, 1)
      | _ => (0xFFFD, 1)

/-- The UTF-8 bytes of a sequence of characters. -/
def utf8Chars : List Char → List Nat
  | [] => []
  | c :: cs => encodeRune c.toNat ++ utf8Chars cs

/-- The UTF-8 bytes of a text: the Go string that holds it. -/
def utf8 (s : String) : List Nat := utf8Chars s.data

/-- The bytes are valid UTF-8: they are the encoding of some text. -/
def validUTF8 (bs : List Nat) : Prop := ∃ s : String, bs = utf8 s

/-! ## Data model of the loader (`main.go` lines 14-29), strings as bytes -/

/-- The struct `MenuItem` with its strings as bytes. -/
structure GoMenuItem where
  Label : List Nat
  Color : List Nat
  Command : List Nat
  deriving DecidableEq, Repr

/-- The anonymous struct of the `Title` field with its strings as bytes. -/
structure GoMenuTitle where
  Label : List Nat
  Color : List Nat
  deriving DecidableEq, Repr

/-- The struct `Menu` with its strings as bytes. -/
structure GoMenu where
  Title : GoMenuTitle
  Items : List GoMenuItem
  deriving DecidableEq, Repr

/-- The Go value of a menu item given as text. -/
def MenuItem.toGo (item : MenuItem) : GoMenuItem :=
  ⟨utf8 item.Label, utf8 item.Color, utf8 item.Command⟩

/-- The Go value of a menu given as text. -/
def Menu.toGo (menu : Menu) : GoMenu :=
  ⟨⟨utf8 menu.Title.Label, utf8 menu.Title.Color⟩, menu.Items.map MenuItem.toGo⟩

/-- Every string of the menu is valid UTF-8. -/
def GoMenu.valid (menu : GoMenu) : Prop :=
  validUTF8 menu.Title.Label ∧ validUTF8 menu.Title.Color ∧
    ∀ item ∈ menu.Items,
      validUTF8 item.Label ∧ validUTF8 item.Color ∧ validUTF8 item.Command

/-! ## `encoding/json` (Go standard library) as used by `saveMenu` and `loadMenu` -/

/-- The sixteen digits `json` writes in a `\u` escape. -/
def hexDigit (n : Nat) : Nat := (ascii "0123456789abcdef").getD n 48

/-- The text `json.Marshal` writes for one byte below `0x80` (`appendString`
with HTML escaping on). -/
def escapeByte (b : Nat) : List Nat :=
  if 0x20 ≤ b ∧ b ≠ '"'.toNat ∧ b ≠ '\\'.toNat ∧ b ≠ '<'.toNat ∧ b ≠ '>'.toNat
      ∧ b ≠ '&'.toNat then [b]
  else if b = '\\'.toNat ∨ b = '"'.toNat then ['\\'.toNat, b]
  else if b = 0x08 then ascii "\\b"
  else if b = 0x0c then ascii "\\f"
  else if b = '\n'.toNat then ascii "\\n"
  else if b = '\r'.toNat then ascii "\\r"
  else if b = '\t'.toNat then ascii "\\t"
  else ascii "\\u00" ++ [hexDigit (b / 16), hexDigit (b % 16)]

/-- The loop of `appendString` over the bytes of a string, the quotes apart.
A byte below `0x80` is copied or escaped; otherwise the rune at the front is
decoded: bytes that are not valid UTF-8 are written `\ufffd` one byte at a
time, U+2028 and U+2029 are escaped, any other rune is copied. -/
def appendString : Nat → List Nat → List Nat
  | 0, _ => []
  | _ + 1, [] => []
  | fuel + 1, b :: rest =>
    if b < 0x80 then escapeByte b ++ appendString fuel rest
    else
      let (c, size) := decodeRune (b :: rest)
      if c = 0xFFFD ∧ size = 1 then ascii "\\ufffd" ++ appendString fuel rest
      else if c = 0x2028 ∨ c = 0x2029 then
        ascii "\\u202" ++ [hexDigit (c % 16)] ++ appendString fuel ((b :: rest).drop size)
      else (b :: rest).take size ++ appendString fuel ((b :: rest).drop size)

/-- A string as `json.Marshal` writes it, between quotes. -/
def quote (s : List Nat) : List Nat :=
  '"'.toNat :: (appendString s.length s ++ ['"'.toNat])

/-- The line break `json.Indent` writes at nesting depth `depth`, with the
empty line start and the indent of two blanks of `MarshalIndent(menu, "", "  ")`. -/
def newline (depth : Nat) : List Nat := '\n'.toNat :: List.replicate (2 * depth) ' '.toNat

/-- An object member whose value is a string: the key, a colon, a blank, the
value. -/
def stringMember (key : String) (value : List Nat) : List Nat :=
  quote (ascii key) ++ ':'.toNat :: ' '.toNat :: quote value

/-- One `MenuItem` as `json.MarshalIndent` writes it inside the `items`
array: its three fields in the order of the struct. -/
def encodeItem (item : GoMenuItem) : List Nat :=
  '\x7b'.toNat :: newline 3 ++ stringMember "label" item.Label
    ++ ','.toNat :: newline 3 ++ stringMember "color" item.Color
    ++ ','.toNat :: newline 3 ++ stringMember "command" item.Command
    ++ newline 2 ++ ['\x7d'.toNat]

/-- The elements of a non-empty `items` array, each on a new line, up to and
with the closing bracket. -/
def encodeItemList : GoMenuItem → List GoMenuItem → List Nat
  | item, [] => newline 2 ++ encodeItem item ++ newline 1 ++ [']'.toNat]
  | item, next :: rest =>
    newline 2 ++ encodeItem item ++ ','.toNat :: encodeItemList next rest

/-- The `Items` slice as `json.MarshalIndent` writes it; a slice without items
is `[]`, and `null` when it is nil. -/
def encodeItems (nilSlice : Bool) (items : List GoMenuItem) : List Nat :=
  match items with
  | [] => if nilSlice then ascii "null" else ascii "[]"
  | item :: rest => '['.toNat :: encodeItemList item rest

/-- The title struct as `json.MarshalIndent` writes it. -/
def encodeTitle (title : GoMenuTitle) : List Nat :=
  '\x7b'.toNat :: newline 2 ++ stringMember "label" title.Label
    ++ ','.toNat :: newline 2 ++ stringMember "color" title.Color
    ++ newline 1 ++ ['\x7d'.toNat]

/-- The bytes of `json.MarshalIndent(menu, "", "  ")`; `nilSlice` tells whether
`menu.Items` is nil, which shows only when it has no items. -/
def MarshalIndent (nilSlice : Bool) (menu : GoMenu) : List Nat :=
  '\x7b'.toNat :: newline 1 ++ quote (ascii "title") ++ ':'.toNat :: ' '.toNat ::
      encodeTitle menu.Title
    ++ ','.toNat :: newline 1 ++ quote (ascii "items") ++ ':'.toNat :: ' '.toNat ::
      encodeItems nilSlice menu.Items
    ++ newline 0 ++ ['\x7d'.toNat]

/-- A JSON value; strings are held decoded, as bytes. -/
inductive JSON where
  | null
  | bool (b : Bool)
  | number (text : List Nat)
  | string (s : List Nat)
  | array (elems : List JSON)
  | object (members : List (List Nat × JSON))

/-- JSON white space: blank, tab, carriage return, line feed. -/
def isSpace (c : Nat) : Bool :=
  c = ' '.toNat || c = '\t'.toNat || c = '\r'.toNat || c = '\n'.toNat

/-- Skips white space. -/
def skipSpace : List Nat → List Nat
  | [] => []
  | c :: cs => if isSpace c then skipSpace cs else c :: cs

/-- The value of a hexadecimal digit. -/
def hexVal (c : Nat) : Option Nat :=
  if '0'.toNat ≤ c ∧ c ≤ '9'.toNat then some (c - 48)
  else if 'a'.toNat ≤ c ∧ c ≤ 'f'.toNat then some (c - 87)
  else if 'A'.toNat ≤ c ∧ c ≤ 'F'.toNat then some (c - 55)
  else none

/-- Four hexadecimal digits (`getu4`). -/
def hex4 (a b c d : Nat) : Option Nat :=
  match hexVal a, hexVal b, hexVal c, hexVal d with
  | some x, some y, some z, some w => some (((x * 16 + y) * 16 + z) * 16 + w)
  | _, _, _, _ => none

/-- The escape `\uXXXX` after its `\u` (`unquoteBytes`): the bytes it stands
for and the rest.  A surrogate is joined with a low surrogate escaped right
after it, and is U+FFFD otherwise. -/
def readEscapeU : List Nat → Option (List Nat × List Nat)
  | a :: b :: c :: d :: r =>
    match hex4 a b c d with
    | none => none
    | some u =>
      if 0xD800 ≤ u ∧ u < 0xE000 then
        match r with
        | bs :: lu :: e :: f :: g :: h :: r2 =>
          if bs = '\\'.toNat ∧ lu = 'u'.toNat then
            match hex4 e f g h with
            | none => none
            | some v =>
              if u < 0xDC00 ∧ 0xDC00 ≤ v ∧ v < 0xE000 then
                some (encodeRune (0x10000 + (u - 0xD800) * 0x400 + (v - 0xDC00)), r2)
              else some (encodeRune 0xFFFD, r)
          else some (encodeRune 0xFFFD, r)
        | _ => some (encodeRune 0xFFFD, r)
      else some (encodeRune u, r)
  | _ => none

/-- Reads one unit of a string literal (`unquoteBytes`): an escape, a byte
below `0x80`, or the rune at the front, which is coerced to well-formed UTF-8.
An escape that the scanner refuses (an unknown letter, `\u` without four
hexadecimal digits), a quote and a control character give nothing. -/
def readChar : List Nat → Option (List Nat × List Nat)
  | [] => none
  | c :: rest =>
    if c = '\\'.toNat then
      match rest with
      | [] => none
      | e :: r =>
        if e = '"'.toNat then some (['"'.toNat], r)
        else if e = '\\'.toNat then some (['\\'.toNat], r)
        else if e = '/'.toNat then some (['/'.toNat], r)
        else if e = 'b'.toNat then some ([0x08], r)
        else if e = 'f'.toNat then some ([0x0c], r)
        else if e = 'n'.toNat then some (['\n'.toNat], r)
        else if e = 'r'.toNat then some (['\r'.toNat], r)
        else if e = 't'.toNat then some (['\t'.toNat], r)
        else if e = 'u'.toNat then readEscapeU r
        else none
    else if c = '"'.toNat ∨ c < 0x20 then none
    else if c < 0x80 then some ([c], rest)
    else
      let (rr, size) := decodeRune (c :: rest)
      some (encodeRune rr, (c :: rest).drop size)

/-- The rest of a string literal after its opening quote, up to and with the
closing quote. -/
def parseStringBody : Nat → List Nat → Option (List Nat × List Nat)
  | 0, _ => none
  | fuel + 1, cs =>
    match cs with
    | [] => none
    | c :: rest =>
      if c = '"'.toNat then some ([], rest)
      else
        match readChar (c :: rest) with
        | none => none
        | some (u, rest1) =>
          match parseStringBody fuel rest1 with
          | none => none
          | some (s, rest2) => some (u ++ s, rest2)

/-- A string literal after its opening quote. -/
def parseString (cs : List Nat) : Option (List Nat × List Nat) :=
  parseStringBody (cs.length + 1) cs

/-- Whether a byte is a decimal digit. -/
def isDigitByte (b : Nat) : Bool := '0'.toNat ≤ b && b ≤ '9'.toNat

/-- One or more decimal digits. -/
def parseDigits (cs : List Nat) : Option (List Nat × List Nat) :=
  match cs.takeWhile isDigitByte with
  | [] => none
  | ds => some (ds, cs.dropWhile isDigitByte)

/-- A JSON number: sign, integer part, fraction, exponent. -/
def parseNumber (cs : List Nat) : Option (List Nat × List Nat) :=
  let (sign, cs1) := match cs with
    | [] => ([], cs)
    | c :: r => if c = '-'.toNat then ([c], r) else ([], cs)
  let intPart : Option (List Nat × List Nat) := match cs1 with
    | [] => none
    | c :: r => if c = '0'.toNat then some ([c], r) else parseDigits cs1
  match intPart with
  | none => none
  | some (ip, cs2) =>
    let frac : Option (List Nat × List Nat) := match cs2 with
      | [] => some ([], cs2)
      | c :: r =>
        if c = '.'.toNat then
          match parseDigits r with
          | none => none
          | some (ds, r2) => some (c :: ds, r2)
        else some ([], cs2)
    match frac with
    | none => none
    | some (fp, cs3) =>
      let exp : Option (List Nat × List Nat) := match cs3 with
        | [] => some ([], cs3)
        | e :: r =>
          if e = 'e'.toNat ∨ e = 'E'.toNat then
            let (sg, r1) := match r with
              | [] => ([], r)
              | g :: r1 => if g = '+'.toNat ∨ g = '-'.toNat then ([g], r1) else ([], r)
            match parseDigits r1 with
            | none => none
            | some (ds, r2) => some (e :: sg ++ ds, r2)
          else some ([], cs3)
      match exp with
      | none => none
      | some (ep, cs4) => some (sign ++ ip ++ fp ++ ep, cs4)

/-- The nesting depth beyond which the scanner gives up (`maxNestingDepth`). -/
def maxNestingDepth : Nat := 10000

/-- Takes the word `word` off the front of `cs`, if it is there. -/
def literal : List Nat → List Nat → Option (List Nat)
  | [], cs => some cs
  | _ :: _, [] => none
  | w :: ws, c :: cs => if w = c then literal ws cs else none

mutual
/-- A JSON value, with the white space before it. -/
def parseValue : Nat → Nat → List Nat → Option (JSON × List Nat)
  | 0, _, _ => none
  | fuel + 1, depth, cs =>
    match skipSpace cs with
    | [] => none
    | c :: r =>
      if c = '"'.toNat then
        match parseString r with
        | none => none
        | some (s, r2) => some (.string s, r2)
      else if c = '\x7b'.toNat then
        if depth + 1 > maxNestingDepth then none
        else
          match skipSpace r with
          | [] => none
          | c2 :: r2 =>
            if c2 = '\x7d'.toNat then some (.object [], r2)
            else
              match parseMembers fuel (depth + 1) r with
              | none => none
              | some (ms, r3) => some (.object ms, r3)
      else if c = '['.toNat then
        if depth + 1 > maxNestingDepth then none
        else
          match skipSpace r with
          | [] => none
          | c2 :: r2 =>
            if c2 = ']'.toNat then some (.array [], r2)
            else
              match parseElems fuel (depth + 1) r with
              | none => none
              | some (vs, r3) => some (.array vs, r3)
      else if c = 't'.toNat then
        match literal (ascii "rue") r with
        | none => none
        | some r2 => some (.bool true, r2)
      else if c = 'f'.toNat then
        match literal (ascii "alse") r with
        | none => none
        | some r2 => some (.bool false, r2)
      else if c = 'n'.toNat then
        match literal (ascii "ull") r with
        | none => none
        | some r2 => some (.null, r2)
      else
        match parseNumber (c :: r) with
        | none => none
        | some (t, r2) => some (.number t, r2)
/-- The elements of an array up to and with the closing bracket. -/
def parseElems : Nat → Nat → List Nat → Option (List JSON × List Nat)
  | 0, _, _ => none
  | fuel + 1, depth, cs =>
    match parseValue fuel depth cs with
    | none => none
    | some (v, r) =>
      match skipSpace r with
      | [] => none
      | c :: r2 =>
        if c = ','.toNat then
          match parseElems fuel depth r2 with
          | none => none
          | some (vs, r3) => some (v :: vs, r3)
        else if c = ']'.toNat then some ([v], r2)
        else none
/-- The members of an object up to and with the closing brace. -/
def parseMembers : Nat → Nat → List Nat → Option (List (List Nat × JSON) × List Nat)
  | 0, _, _ => none
  | fuel + 1, depth, cs =>
    match skipSpace cs with
    | [] => none
    | q :: r =>
      if q = '"'.toNat then
        match parseString r with
        | none => none
        | some (k, r1) =>
          match skipSpace r1 with
          | [] => none
          | c :: r2 =>
            if c = ':'.toNat then
              match parseValue fuel depth r2 with
              | none => none
              | some (v, r3) =>
                match skipSpace r3 with
                | [] => none
                | c2 :: r4 =>
                  if c2 = ','.toNat then
                    match parseMembers fuel depth r4 with
                    | none => none
                    | some (ms, r5) => some ((k, v) :: ms, r5)
                  else if c2 = '\x7d'.toNat then some ([(k, v)], r4)
                  else none
            else none
      else none
end

/-- A whole JSON text: one value and nothing but white space after it
(`checkValid`).  The fuel bounds the chain of nested calls, which is at most
twice as long as the text: of two calls in a row one at least reads a byte. -/
def parseJSON (text : List Nat) : Option JSON :=
  match parseValue (2 * text.length + 2) 0 text with
  | none => none
  | some (v, rest) => if skipSpace rest = [] then some v else none

/-- Folds the case of an object key as far as it can reach a lower case ASCII
name: the capital letters, and the runes U+017F and U+212A, which fold to `s`
and `k`. -/
def foldKey : List Nat → List Nat
  | [] => []
  | 0xC5 :: 0xBF :: rest => 's'.toNat :: foldKey rest
  | 0xE2 :: 0x84 :: 0xAA :: rest => 'k'.toNat :: foldKey rest
  | b :: rest => (if 'A'.toNat ≤ b ∧ b ≤ 'Z'.toNat then b + 32 else b) :: foldKey rest

/-- Whether the key of a JSON object member selects the struct field tagged
`name` (a lower case ASCII name): an exact match or a match up to case. -/
def fieldIs (name : String) (key : List Nat) : Bool :=
  key = ascii name || foldKey key = ascii name

/-- Decodes a JSON value into a Go `string` that holds `old`: a string
replaces it, `null` leaves it, anything else is an `UnmarshalTypeError`. -/
def decodeString (old : List Nat) : JSON → Option (List Nat)
  | .string s => some s
  | .null => some old
  | _ => none

/-- Decodes the members of a JSON object into the title struct. -/
def decodeTitleMembers (t : GoMenuTitle) : List (List Nat × JSON) → Option GoMenuTitle
  | [] => some t
  | (k, v) :: ms =>
    if fieldIs "label" k then
      match decodeString t.Label v with
      | none => none
      | some s => decodeTitleMembers { t with Label := s } ms
    else if fieldIs "color" k then
      match decodeString t.Color v with
      | none => none
      | some s => decodeTitleMembers { t with Color := s } ms
    else decodeTitleMembers t ms

/-- Decodes a JSON value into the title struct that holds `old`. -/
def decodeTitle (old : GoMenuTitle) : JSON → Option GoMenuTitle
  | .object ms => decodeTitleMembers old ms
  | .null => some old
  | _ => none

/-- Decodes the members of a JSON object into a `MenuItem`. -/
def decodeItemMembers (it : GoMenuItem) : List (List Nat × JSON) → Option GoMenuItem
  | [] => some it
  | (k, v) :: ms =>
    if fieldIs "label" k then
      match decodeString it.Label v with
      | none => none
      | some s => decodeItemMembers { it with Label := s } ms
    else if fieldIs "color" k then
      match decodeString it.Color v with
      | none => none
      | some s => decodeItemMembers { it with Color := s } ms
    else if fieldIs "command" k then
      match decodeString it.Command v with
      | none => none
      | some s => decodeItemMembers { it with Command := s } ms
    else decodeItemMembers it ms

/-- Decodes a JSON value into a `MenuItem` that holds `old`. -/
def decodeItem (old : GoMenuItem) : JSON → Option GoMenuItem
  | .object ms => decodeItemMembers old ms
  | .null => some old
  | _ => none

/-- Decodes the elements of a JSON array one by one into the elements of the
backing array of the slice: element `i` is decoded into what the array holds
at `i`, which is the zero `MenuItem` where nothing was written before. -/
def decodeItemList : List GoMenuItem → List JSON → Option (List GoMenuItem)
  | _, [] => some []
  | backing, v :: vs =>
    match decodeItem (backing.headD ⟨[], [], []⟩) v with
    | none => none
    | some it =>
      match decodeItemList backing.tail vs with
      | none => none
      | some its => some (it :: its)

/-- The `Items` slice during `Unmarshal`: its elements, and the backing array
as far as it was ever written (the elements are its front). -/
structure ItemSlice where
  items : List GoMenuItem
  backing : List GoMenuItem

/-- Decodes a JSON value into the `Items` slice: an array is decoded element
by element into the backing array and the length is set to the number of
elements (an empty array gives a new empty slice); `null` sets the slice to
nil; anything else is an `UnmarshalTypeError`. -/
def decodeItems (old : ItemSlice) : JSON → Option ItemSlice
  | .array [] => some ⟨[], []⟩
  | .array vs =>
    match decodeItemList old.backing vs with
    | none => none
    | some its => some ⟨its, its ++ old.backing.drop its.length⟩
  | .null => some ⟨[], []⟩
  | _ => none

/-- Decodes the members of a JSON object into a `Menu` whose title is `t` and
whose item slice is `sl`. -/
def decodeMenuMembers (t : GoMenuTitle) (sl : ItemSlice) :
    List (List Nat × JSON) → Option GoMenu
  | [] => some ⟨t, sl.items⟩
  | (k, v) :: ms =>
    if fieldIs "title" k then
      match decodeTitle t v with
      | none => none
      | some t2 => decodeMenuMembers t2 sl ms
    else if fieldIs "items" k then
      match decodeItems sl v with
      | none => none
      | some sl2 => decodeMenuMembers t sl2 ms
    else decodeMenuMembers t sl ms

/-- Decodes a JSON value into a zero `Menu`: an object fills the fields,
`null` leaves the zero value, anything else is an `UnmarshalTypeError`. -/
def decodeMenu : JSON → Option GoMenu
  | .object ms => decodeMenuMembers ⟨[], []⟩ ⟨[], []⟩ ms
  | .null => some ⟨⟨[], []⟩, []⟩
  | _ => none

/-- The function `json.Unmarshal(file, &menu)` on a zero `Menu`: the text must
be valid JSON, and its value must fit the struct.  Go goes on decoding after a
value of the wrong type and returns the error at the end; `loadMenu` then drops
the menu, so nothing is lost by stopping at once. -/
def Unmarshal (text : List Nat) : Option GoMenu :=
  match parseJSON text with
  | none => none
  | some v => decodeMenu v

/-! ## Configuration loader (`main.go` lines 135-192) -/

/-- The failures of `loadMenu`. -/
inductive LoadError where
  /-- the file could not be read (`os.ReadFile` failed). -/
  | readFailed
  /-- the content is not JSON or does not fit the `Menu` struct
  (`json.Unmarshal` failed). -/
  | unmarshalFailed
  deriving DecidableEq, Repr

/-- The function `loadMenu`; `file` is what `os.ReadFile(filePath)` returns,
the bytes of the file, or nothing when the read fails. -/
def loadMenu (file : Option (List Nat)) : Except LoadError GoMenu :=
  match file with
  | none => .error .readFailed
  | some text =>
    match Unmarshal text with
    | none => .error .unmarshalFailed
    | some menu => .ok menu

/-- What `saveMenu` does to its environment, in order. -/
inductive SaveEffect where
  /-- writes bytes to standard output. -/
  | stdout (bytes : List Nat)
  /-- writes a file with the given content (`os.WriteFile`). -/
  | writeFile (path content : List Nat)
  deriving DecidableEq, Repr

/-- A `MenuItem` as `fmt.Println` writes it. -/
def printlnItem (item : GoMenuItem) : List Nat :=
  ascii "\x7b" ++ item.Label ++ ascii " " ++ item.Color ++ ascii " " ++ item.Command
    ++ ascii "\x7d"

/-- The items of the slice as `fmt.Println` writes them, a blank between
two. -/
def printlnItems : List GoMenuItem → List Nat
  | [] => []
  | [item] => printlnItem item
  | item :: rest => printlnItem item ++ ascii " " ++ printlnItems rest

/-- The text of `fmt.Println(menu)`: the fields in order, structs in braces,
the slice in brackets. -/
def printlnMenu (menu : GoMenu) : List Nat :=
  ascii "\x7b\x7b" ++ menu.Title.Label ++ ascii " " ++ menu.Title.Color ++ ascii "\x7d ["
    ++ printlnItems menu.Items ++ ascii "]\x7d\n"

/-- The function `saveMenu`: its effects, and whether it returns an error.
`json.MarshalIndent` cannot fail on a `Menu`, whose fields are all strings, so
the first error branch is never taken; `writeFails` tells whether
`os.WriteFile` fails. -/
def saveMenu (filePath : List Nat) (nilSlice : Bool) (menu : GoMenu) (writeFails : Bool) :
    List SaveEffect × Bool :=
  let menuJSON := MarshalIndent nilSlice menu
  let start : List SaveEffect :=
    [ .stdout (printlnMenu menu),
      .stdout (ascii "writing example config to " ++ filePath ++ ascii "\n"),
      .writeFile filePath menuJSON ]
  if writeFails then (start ++ [.stdout (ascii "Error writeing file\n")], true)
  else (start, false)

/-- The function `createExampleMenu`: the example menu is a literal, so its
`Items` slice is not nil. -/
def createExampleMenu (filePath : List Nat) (writeFails : Bool) : List SaveEffect :=
  (saveMenu filePath false exampleMenu.toGo writeFails).1

/-- The content of the file `path` after a run of effects: what the last
`writeFile` on it wrote, if any. -/
def written (path : List Nat) : List SaveEffect → Option (List Nat)
  | [] => none
  | .writeFile p content :: rest =>
    match written path rest with
    | some later => some later
    | none => if p = path then some content else none
  | _ :: rest => written path rest

/-- A menu whose title label is the single byte `0xFF`, which is not valid
UTF-8. -/
def brokenTitle : GoMenu := ⟨⟨[0xFF], ascii "blue"⟩, []⟩


/-! ## Notions used to state the properties -/

/-- The value of a run of decimal digits, most significant first. -/
def decimalValue (ds : List Char) : Nat := ds.foldl (fun n c => n * 10 + (c.toNat - 48)) 0

/-- The characters `l` are a decimal numeral of the integer `n` in the sense of
`strconv`: an optional sign, then at least one digit, the value within the
range of `int`. -/
def denotes (sz : IntSize) (l : List Char) (n : Int) : Prop :=
  ∃ ds : List Char, ds ≠ [] ∧ (∀ c ∈ ds, isDigit c = true) ∧
    (((l = ds ∨ l = '+' :: ds) ∧ n = (decimalValue ds : Int) ∧
        decimalValue ds < 2 ^ (sz.bits - 1)) ∨
     (l = '-' :: ds ∧ n = -(decimalValue ds : Int) ∧ decimalValue ds ≤ 2 ^ (sz.bits - 1)))

/-- The decimal numerals of `1` to `K`: the strings `"1"`, ..., `"K"`. -/
def decimalNumerals (K : Nat) : List String := (List.range K).map (fun i => toString (i + 1))

/-- The line is an optional plus sign followed by decimal digits, leading zeros
allowed, whose value lies between `1` and `K`. -/
def selects (K : Nat) (s : String) : Prop :=
  ∃ ds : List Char, ds ≠ [] ∧ (∀ c ∈ ds, isDigit c = true) ∧
    (s.data = ds ∨ s.data = '+' :: ds) ∧ 1 ≤ decimalValue ds ∧ decimalValue ds ≤ K

/-- The commands handed to bash by a run of effects, in order. -/
def commandsRun : List Effect → List String
  | [] => []
  | .bash c :: rest => c :: commandsRun rest
  | _ :: rest => commandsRun rest

/-- Removes the colour escape sequences, each running from `ESC` to the next
`m`; the flag tells whether the scan is inside one. -/
def stripEscapes : Bool → List Char → List Char
  | _, [] => []
  | false, c :: cs => if c = '\x1b' then stripEscapes true cs else c :: stripEscapes false cs
  | true, c :: cs => if c = 'm' then stripEscapes false cs else stripEscapes true cs

/-- The number of visible characters of a line: what is left once the colour
escape sequences are removed. -/
def visibleWidth (line : List Char) : Nat := (stripEscapes false line).length

/-- Cuts text into lines at each newline; `acc` holds the current line,
reversed. -/
def linesAux : List Char → List Char → List (List Char)
  | acc, [] => if acc = [] then [] else [acc.reverse]
  | acc, c :: cs => if c = '\n' then acc.reverse :: linesAux [] cs else linesAux (c :: acc) cs

/-- The lines of a text written to the terminal. -/
def printedLines (out : String) : List (List Char) := linesAux [] out.data

/-- The number of blanks that follow the first character of a line. -/
def leadingBlanks (line : String) : Nat :=
  ((line.data.drop 1).takeWhile (fun c => c = ' ')).length

/-- A menu whose two items share label and colour and differ in the command. -/
def twins : Menu :=
  ⟨⟨"Twins", "red"⟩, [⟨"Same", "red", "echo first"⟩, ⟨"Same", "red", "echo second"⟩]⟩

/-- A menu of eleven items. -/
def elevenItems : Menu :=
  ⟨⟨"Big", "red"⟩, List.replicate 11 ⟨"x", "red", "true"⟩⟩

/-- Ten items labelled `Item 1` to `Item 10`. -/
def tenItems : List MenuItem :=
  (List.range 10).map (fun i => ⟨"Item " ++ toString (i + 1), "green", "true"⟩)

/-- Printable ASCII text: every character lies between the blank and the tilde. -/
def printable (s : String) : Prop := ∀ c ∈ s.data, 32 ≤ c.toNat ∧ c.toNat < 127

/-- The text `appendString` writes for one character of a valid string. -/
def escapeUnit (c : Char) : List Nat :=
  if c.toNat < 0x80 then escapeByte c.toNat
  else if c.toNat = 0x2028 ∨ c.toNat = 0x2029 then ascii "\\u202" ++ [hexDigit (c.toNat % 16)]
  else encodeRune c.toNat

/-- The text `appendString` writes for the characters of a valid string. -/
def escapeUnits : List Char → List Nat
  | [] => []
  | c :: cs => escapeUnit c ++ escapeUnits cs

/-- What `json.Marshal` writes between the quotes for a text. -/
def quoted (s : String) : List Nat := appendString (utf8 s).length (utf8 s)

/-- The JSON value that `encodeItem` writes for an item given as text. -/
def itemJSON (item : MenuItem) : JSON :=
  .object [(utf8 "label", .string (utf8 item.Label)), (utf8 "color", .string (utf8 item.Color)),
    (utf8 "command", .string (utf8 item.Command))]

/-- The JSON value that `encodeTitle` writes for a title given as text. -/
def titleJSON (t : MenuTitle) : JSON :=
  .object [(utf8 "label", .string (utf8 t.Label)), (utf8 "color", .string (utf8 t.Color))]

/-- The JSON value that `encodeItems` writes for items given as text. -/
def itemsJSON (nilSlice : Bool) (items : List MenuItem) : JSON :=
  match items with
  | [] => if nilSlice then .null else .array []
  | _ => .array (items.map itemJSON)

/-- The JSON value that `MarshalIndent` writes for a menu given as text. -/
def menuJSON (nilSlice : Bool) (m : Menu) : JSON :=
  .object [(utf8 "title", titleJSON m.Title), (utf8 "items", itemsJSON nilSlice m.Items)]

/-! ## `strconv.Atoi`: what it accepts -/

theorem foldl_ge (cs : List Char) (n : Nat) :
    n ≤ cs.foldl (fun n c => n * 10 + (c.toNat - 48)) n := by
  induction cs generalizing n with
  | nil => simp
  | cons c cs ih =>
    simp only [List.foldl_cons]
    exact le_trans (by omega) (ih _)

theorem atoiFast_ok_iff (cs : List Char) (n v : Nat) :
    atoiFast cs n = .ok v ↔
      (∀ c ∈ cs, isDigit c = true) ∧ v = cs.foldl (fun n c => n * 10 + (c.toNat - 48)) n := by
  induction cs generalizing n with
  | nil =>
    simp only [atoiFast, Except.ok.injEq, List.not_mem_nil, false_implies, implies_true,
      List.foldl_nil, true_and]
    exact eq_comm
  | cons c cs ih =>
    simp only [atoiFast, List.foldl_cons, List.mem_cons, forall_eq_or_imp]
    by_cases hc : isDigit c = true
    · simp [hc, ih]
    · simp [hc]

/-- The digit loop of `ParseUint` succeeds exactly on runs of digits whose
value does not exceed `maxVal`, and returns that value. -/
theorem parseUintLoop_ok_iff (maxVal : Nat) (hmax : maxVal < 2 ^ 64) (cs : List Char) (n v : Nat)
    (hn : n ≤ maxVal) :
    parseUintLoop maxVal cs n = .ok v ↔
      (∀ c ∈ cs, isDigit c = true) ∧ v = cs.foldl (fun n c => n * 10 + (c.toNat - 48)) n
        ∧ v ≤ maxVal := by
  induction cs generalizing n with
  | nil =>
    simp only [parseUintLoop, Except.ok.injEq, List.not_mem_nil, false_implies, implies_true,
      List.foldl_nil, true_and]
    constructor
    · rintro rfl; exact ⟨rfl, hn⟩
    · rintro ⟨rfl, _⟩; rfl
  | cons c cs ih =>
    simp only [parseUintLoop, List.foldl_cons, List.mem_cons, forall_eq_or_imp]
    by_cases hc : isDigit c = true
    · have hd : c.toNat - 48 ≤ 9 := by
        simp only [isDigit, Bool.and_eq_true, decide_eq_true_eq] at hc
        omega
      have hge := foldl_ge cs (n * 10 + (c.toNat - 48))
      simp only [hc, if_true, true_and]
      norm_num at hmax ⊢
      by_cases h1 : 1844674407370955162 ≤ n
      · simp only [h1, if_true]
        constructor
        · intro h; cases h
        · rintro ⟨_, rfl, h3⟩; omega
      · simp only [h1, if_false]
        have e10 : n * 10 % 18446744073709551616 = n * 10 := Nat.mod_eq_of_lt (by omega)
        rw [e10]
        by_cases h2 : n * 10 + (c.toNat - 48) < 18446744073709551616
        · rw [Nat.mod_eq_of_lt h2]
          by_cases h3 : n * 10 + (c.toNat - 48) > maxVal
          · have : (n * 10 + (c.toNat - 48) < n * 10 ∨ n * 10 + (c.toNat - 48) > maxVal) := Or.inr h3
            simp only [this, if_true]
            constructor
            · intro h; cases h
            · rintro ⟨_, rfl, h4⟩; omega
          · have : ¬ (n * 10 + (c.toNat - 48) < n * 10 ∨ n * 10 + (c.toNat - 48) > maxVal) := by
              omega
            simp only [this, if_false]
            exact ih _ (by omega)
        · have : ((n * 10 + (c.toNat - 48)) % 18446744073709551616 < n * 10 ∨
              (n * 10 + (c.toNat - 48)) % 18446744073709551616 > maxVal) := by
            left; omega
          simp only [this, if_true]
          constructor
          · intro h; cases h
          · rintro ⟨_, rfl, h4⟩; omega
    · simp [hc]

theorem ParseUint_ok_iff (sz : IntSize) (l : List Char) (v : Nat) :
    ParseUint sz l = .ok v ↔
      l ≠ [] ∧ (∀ c ∈ l, isDigit c = true) ∧ v = decimalValue l ∧ v ≤ 2 ^ sz.bits - 1 := by
  unfold ParseUint
  by_cases hl : l = []
  · simp [hl]
  · simp only [hl, if_false, ne_eq, not_false_eq_true, true_and]
    have hmax : 2 ^ sz.bits - 1 < 2 ^ 64 := by cases sz <;> simp [IntSize.bits]
    exact parseUintLoop_ok_iff _ hmax l 0 v (Nat.zero_le _)

theorem isDigit_plus : isDigit '+' = false := by decide
theorem isDigit_minus : isDigit '-' = false := by decide

theorem ParseInt_ok_iff (sz : IntSize) (l : List Char) (n : Int) :
    ParseInt sz l = .ok n ↔ denotes sz l n := by
  have hpow : (2:Nat) ^ (sz.bits - 1) ≤ 2 ^ sz.bits - 1 ∧ 0 < 2 ^ (sz.bits - 1) := by
    cases sz <;> simp [IntSize.bits]
  cases l with
  | nil =>
    simp only [ParseInt, denotes]
    constructor
    · intro h; cases h
    · rintro ⟨ds, hne, _, (⟨h | h, _⟩ | ⟨h, _⟩)⟩
      · exact absurd h.symm hne
      · cases h
      · cases h
  | cons c0 rest =>
    simp only [ParseInt]
    by_cases hm : c0 = '-'
    · subst hm
      simp only [true_or, or_true, if_true, not_true_eq_false, false_and, if_false, true_and]
      constructor
      · intro h
        cases hu : ParseUint sz rest with
        | error e => rw [hu] at h; cases h
        | ok un =>
          rw [hu] at h
          obtain ⟨hne, hall, hv, _⟩ := (ParseUint_ok_iff sz rest un).1 hu
          by_cases hc : un > 2 ^ (sz.bits - 1)
          · simp [hc] at h
          · simp only [hc, if_false, Except.ok.injEq] at h
            refine ⟨rest, hne, hall, Or.inr ⟨rfl, ?_, ?_⟩⟩
            · rw [← hv]; exact h.symm
            · rw [← hv]; omega
      · rintro ⟨ds, hne, hall, (⟨h | h, _⟩ | ⟨h, hn, hle⟩)⟩
        · exfalso
          have := hall '-' (by rw [← h]; simp)
          rw [isDigit_minus] at this; cases this
        · cases h
        · cases h
          have hu : ParseUint sz rest = .ok (decimalValue rest) :=
            (ParseUint_ok_iff sz rest _).2 ⟨hne, hall, rfl, by omega⟩
          rw [hu]
          have hc : ¬ decimalValue rest > 2 ^ (sz.bits - 1) := by omega
          simp [hc, hn]
    · by_cases hp : c0 = '+'
      · subst hp
        simp only [true_or, if_true, hm, not_false_eq_true, true_and, false_and, if_false]
        constructor
        · intro h
          cases hu : ParseUint sz rest with
          | error e => rw [hu] at h; cases h
          | ok un =>
            rw [hu] at h
            obtain ⟨hne, hall, hv, _⟩ := (ParseUint_ok_iff sz rest un).1 hu
            by_cases hc : un ≥ 2 ^ (sz.bits - 1)
            · simp [hc] at h
            · simp only [hc, if_false, Except.ok.injEq] at h
              refine ⟨rest, hne, hall, Or.inl ⟨Or.inr rfl, ?_, ?_⟩⟩
              · rw [← hv]; exact h.symm
              · rw [← hv]; omega
        · rintro ⟨ds, hne, hall, (⟨h | h, hn, hlt⟩ | ⟨h, _⟩)⟩
          · exfalso
            have := hall '+' (by rw [← h]; simp)
            rw [isDigit_plus] at this; cases this
          · cases h
            have hu : ParseUint sz rest = .ok (decimalValue rest) :=
              (ParseUint_ok_iff sz rest _).2 ⟨hne, hall, rfl, by omega⟩
            rw [hu]
            have hc : ¬ decimalValue rest ≥ 2 ^ (sz.bits - 1) := by omega
            simp [hc, hn]
          · cases h
      · simp only [hp, hm, or_self, if_false, not_false_eq_true, true_and, false_and]
        constructor
        · intro h
          cases hu : ParseUint sz (c0 :: rest) with
          | error e => rw [hu] at h; cases h
          | ok un =>
            rw [hu] at h
            obtain ⟨hne, hall, hv, _⟩ := (ParseUint_ok_iff sz _ un).1 hu
            by_cases hc : un ≥ 2 ^ (sz.bits - 1)
            · simp [hc] at h
            · simp only [hc, if_false, Except.ok.injEq] at h
              refine ⟨c0 :: rest, hne, hall, Or.inl ⟨Or.inl rfl, ?_, ?_⟩⟩
              · rw [← hv]; exact h.symm
              · rw [← hv]; omega
        · rintro ⟨ds, hne, hall, (⟨h | h, hn, hlt⟩ | ⟨h, _⟩)⟩
          · subst h
            have hu : ParseUint sz (c0 :: rest) = .ok (decimalValue (c0 :: rest)) :=
              (ParseUint_ok_iff sz _ _).2 ⟨hne, hall, rfl, by omega⟩
            rw [hu]
            have hc : ¬ decimalValue (c0 :: rest) ≥ 2 ^ (sz.bits - 1) := by omega
            simp [hc, hn]
          · cases h; exact absurd rfl hp
          · cases h; exact absurd rfl hm

theorem utf8ByteSize_go_ge (l : List Char) : l.length ≤ String.utf8ByteSize.go l := by
  induction l with
  | nil => simp [String.utf8ByteSize.go]
  | cons c cs ih =>
    simp only [String.utf8ByteSize.go, List.length_cons]
    have := Char.utf8Size_pos c
    omega

theorem length_le_len (s : String) : (s.data.length : Int) ≤ len s := by
  have := utf8ByteSize_go_ge s.data
  simp only [len, String.utf8ByteSize]
  exact_mod_cast this

theorem foldl_lt (cs : List Char) (h : ∀ c ∈ cs, isDigit c = true) (n : Nat) :
    cs.foldl (fun n c => n * 10 + (c.toNat - 48)) n < (n + 1) * 10 ^ cs.length := by
  induction cs generalizing n with
  | nil => simp
  | cons c cs ih =>
    simp only [List.foldl_cons, List.length_cons]
    have hc := h c (by simp)
    simp only [isDigit, Bool.and_eq_true, decide_eq_true_eq] at hc
    have := ih (fun c hc => h c (by simp [hc])) (n * 10 + (c.toNat - 48))
    calc _ < (n * 10 + (c.toNat - 48) + 1) * 10 ^ cs.length := this
      _ ≤ ((n + 1) * 10) * 10 ^ cs.length := Nat.mul_le_mul_right _ (by omega)
      _ = (n + 1) * 10 ^ (cs.length + 1) := by ring

theorem decimalValue_lt (ds : List Char) (h : ∀ c ∈ ds, isDigit c = true) :
    decimalValue ds < 10 ^ ds.length := by
  have := foldl_lt ds h 0
  simpa [decimalValue] using this


theorem atoiBody_ok_iff (body : List Char) (neg : Prop) [Decidable neg] (n : Int) :
    ((if body.length < 1 then (.error .ErrSyntax : Except NumError Int)
      else match atoiFast body 0 with
        | .error e => .error e
        | .ok n => if neg then .ok (-(n : Int)) else .ok (n : Int)) = .ok n) ↔
    body ≠ [] ∧ (∀ c ∈ body, isDigit c = true) ∧
      n = if neg then -(decimalValue body : Int) else (decimalValue body : Int) := by
  cases body with
  | nil => simp
  | cons b bs =>
    simp only [List.length_cons, Nat.lt_one_iff, Nat.add_one_ne_zero, if_false, ne_eq,
      reduceCtorEq, not_false_eq_true, true_and]
    cases hf : atoiFast (b :: bs) 0 with
    | error e =>
      have : ¬ ((∀ c ∈ b :: bs, isDigit c = true)) := by
        intro hall
        have := (atoiFast_ok_iff (b :: bs) 0 _).2 ⟨hall, rfl⟩
        rw [hf] at this; cases this
      simp only [this, false_and, iff_false]
      intro h; cases h
    | ok v =>
      obtain ⟨hall, hv⟩ := (atoiFast_ok_iff _ _ _).1 hf
      have hv2 : v = decimalValue (b :: bs) := hv
      subst hv2
      simp only [hall, true_and]
      by_cases hneg : neg
      · simp only [hneg, if_true, Except.ok.injEq]
        exact ⟨fun h => ⟨hall, h.symm⟩, fun h => h.2.symm⟩
      · simp only [hneg, if_false, Except.ok.injEq]
        exact ⟨fun h => ⟨hall, h.symm⟩, fun h => h.2.symm⟩

theorem atoiSmall_ok_iff (l : List Char) (n : Int) :
    atoiSmall l = .ok n ↔
    ∃ ds : List Char, ds ≠ [] ∧ (∀ c ∈ ds, isDigit c = true) ∧
      (((l = ds ∨ l = '+' :: ds) ∧ n = (decimalValue ds : Int)) ∨
       (l = '-' :: ds ∧ n = -(decimalValue ds : Int))) := by
  cases l with
  | nil =>
    simp only [atoiSmall]
    constructor
    · intro h; cases h
    · rintro ⟨ds, hne, _, (⟨h | h, _⟩ | ⟨h, _⟩)⟩
      · exact absurd h.symm hne
      · cases h
      · cases h
  | cons c0 rest =>
    have key := atoiBody_ok_iff (if c0 = '-' ∨ c0 = '+' then rest else c0 :: rest) (c0 = '-') n
    have e : atoiSmall (c0 :: rest) =
        (if (if c0 = '-' ∨ c0 = '+' then rest else c0 :: rest).length < 1 then
          (.error .ErrSyntax : Except NumError Int)
        else match atoiFast (if c0 = '-' ∨ c0 = '+' then rest else c0 :: rest) 0 with
          | .error e => .error e
          | .ok n => if c0 = '-' then .ok (-(n : Int)) else .ok (n : Int)) := by
      rfl
    rw [e, key]
    by_cases hm : c0 = '-'
    · subst hm
      simp only [true_or, if_true]
      constructor
      · rintro ⟨hne, hall, hn⟩
        exact ⟨rest, hne, hall, Or.inr ⟨rfl, hn⟩⟩
      · rintro ⟨ds, hne, hall, (⟨h | h, _⟩ | ⟨h, hn⟩)⟩
        · exfalso
          have := hall '-' (by rw [← h]; simp)
          rw [isDigit_minus] at this; cases this
        · cases h
        · cases h; exact ⟨hne, hall, hn⟩
    · by_cases hp : c0 = '+'
      · subst hp
        simp only [or_true, if_true, hm, if_false]
        constructor
        · rintro ⟨hne, hall, hn⟩
          exact ⟨rest, hne, hall, Or.inl ⟨Or.inr rfl, hn⟩⟩
        · rintro ⟨ds, hne, hall, (⟨h | h, hn⟩ | ⟨h, _⟩)⟩
          · exfalso
            have := hall '+' (by rw [← h]; simp)
            rw [isDigit_plus] at this; cases this
          · cases h; exact ⟨hne, hall, hn⟩
          · cases h
      · simp only [hm, hp, or_self, if_false]
        constructor
        · rintro ⟨hne, hall, hn⟩
          exact ⟨c0 :: rest, hne, hall, Or.inl ⟨Or.inl rfl, hn⟩⟩
        · rintro ⟨ds, hne, hall, (⟨h | h, hn⟩ | ⟨h, _⟩)⟩
          · subst h; exact ⟨hne, hall, hn⟩
          · cases h; exact absurd rfl hp
          · cases h; exact absurd rfl hm

/-- What `strconv.Atoi` accepts: an optional sign and at least one decimal
digit, the value within the range of `int`; it returns that value. -/
theorem Atoi_ok_iff (sz : IntSize) (s : String) (n : Int) :
    Atoi sz s = .ok n ↔ denotes sz s.data n := by
  unfold Atoi
  simp only
  split_ifs with hfast
  · -- fast path
    have hlen := length_le_len s
    rw [atoiSmall_ok_iff]
    simp only [denotes]
    have hbound : ∀ ds : List Char, (∀ c ∈ ds, isDigit c = true) →
        ds.length ≤ s.data.length → decimalValue ds < 2 ^ (sz.bits - 1) := by
      intro ds hall hl
      have h1 := decimalValue_lt ds hall
      have h2 : (10:Nat) ^ ds.length ≤ 10 ^ s.data.length :=
        Nat.pow_le_pow_right (by norm_num) hl
      rcases hfast with ⟨rfl, _, h⟩ | ⟨rfl, _, h⟩
      · have h3 : s.data.length ≤ 9 := by omega
        have h4 : (10:Nat) ^ s.data.length ≤ 10 ^ 9 :=
          Nat.pow_le_pow_right (by norm_num) h3
        have h5 : (10:Nat) ^ 9 ≤ 2 ^ (IntSize.bits32.bits - 1) := by
          simp only [IntSize.bits]; norm_num
        exact lt_of_lt_of_le h1 (le_trans h2 (le_trans h4 h5))
      · have h3 : s.data.length ≤ 18 := by omega
        have h4 : (10:Nat) ^ s.data.length ≤ 10 ^ 18 :=
          Nat.pow_le_pow_right (by norm_num) h3
        have h5 : (10:Nat) ^ 18 ≤ 2 ^ (IntSize.bits64.bits - 1) := by
          simp only [IntSize.bits]; norm_num
        exact lt_of_lt_of_le h1 (le_trans h2 (le_trans h4 h5))
    constructor
    · rintro ⟨ds, hne, hall, (⟨h, hn⟩ | ⟨h, hn⟩)⟩
      · refine ⟨ds, hne, hall, Or.inl ⟨h, hn, hbound ds hall ?_⟩⟩
        rcases h with h | h <;> simp [h]
      · refine ⟨ds, hne, hall, Or.inr ⟨h, hn, le_of_lt (hbound ds hall ?_)⟩⟩
        simp [h]
    · rintro ⟨ds, hne, hall, (⟨h, hn, _⟩ | ⟨h, hn, _⟩)⟩
      · exact ⟨ds, hne, hall, Or.inl ⟨h, hn⟩⟩
      · exact ⟨ds, hne, hall, Or.inr ⟨h, hn⟩⟩
  · exact ParseInt_ok_iff sz s.data n

/-! ## The input loop -/

theorem loopBody_invalid_iff (sz : IntSize) (menu : Menu) (s : String)
    (failure : String → Option String) :
    (loopBody sz menu (.ok s) failure).branch = .invalid ↔
      s ≠ "q" ∧ ¬ ∃ n, Atoi sz s = .ok n ∧ 1 ≤ n ∧ n ≤ (menu.Items.length : Int) := by
  unfold loopBody
  simp only
  by_cases hq : s = "q"
  · simp [hq]
  · simp only [hq, if_false, ne_eq, not_false_eq_true, true_and]
    cases ha : Atoi sz s with
    | error e => simp
    | ok n =>
      simp only [Except.ok.injEq, exists_eq_left']
      by_cases hr : n < 1 ∨ n > (menu.Items.length : Int)
      · simp only [hr, if_true, true_iff]; omega
      · simp only [hr, if_false]
        have h0 : ¬ (n - 1 < 0) := by omega
        have hlt : (n - 1).toNat < menu.Items.length := by omega
        obtain ⟨item, hitem⟩ : ∃ item, menu.Items.get? (n - 1).toNat = some item :=
          ⟨_, List.get?_eq_get hlt⟩
        simp only [dispatch, h0, if_false, hitem]
        constructor
        · intro h; cases h
        · intro h; omega

theorem commandsRun_append (a b : List Effect) :
    commandsRun (a ++ b) = commandsRun a ++ commandsRun b := by
  induction a with
  | nil => rfl
  | cons e a ih => cases e <;> simp [commandsRun, ih]

theorem commandsRun_drawAndPrompt (menu : Menu) : commandsRun (drawAndPrompt menu) = [] := rfl

theorem commandsRun_runCommand (c : String) (f : Option String) :
    commandsRun (runCommand c f) = [c] := by
  cases f <;> rfl

theorem loopBody_q (sz : IntSize) (menu : Menu) (failure : String → Option String) :
    loopBody sz menu (.ok "q") failure = ⟨.quit, drawAndPrompt menu, ⟨menu, true⟩⟩ := by
  simp [loopBody]

theorem loopBody_invalid (sz : IntSize) (menu : Menu) (s : String)
    (failure : String → Option String) (hq : s ≠ "q")
    (h : ¬ ∃ n, Atoi sz s = .ok n ∧ 1 ≤ n ∧ n ≤ (menu.Items.length : Int)) :
    loopBody sz menu (.ok s) failure =
      ⟨.invalid,
        drawAndPrompt menu ++
          [.stdout (">" ++ stringOfInt menu.Items.length ++ "\n"),
           .stdout "Invalid option. Please try again.\n",
           .sleep 2],
        ⟨menu, false⟩⟩ := by
  unfold loopBody
  simp only [hq, if_false]
  cases ha : Atoi sz s with
  | error e => rfl
  | ok n =>
    have hr : n < 1 ∨ n > (menu.Items.length : Int) := by
      by_contra hc
      exact h ⟨n, ha, by omega, by omega⟩
    simp only [hr, if_true]

theorem loopBody_dispatch (sz : IntSize) (menu : Menu) (s : String)
    (failure : String → Option String) (n : Int) (hq : s ≠ "q")
    (ha : Atoi sz s = .ok n) (h1 : 1 ≤ n) (h2 : n ≤ (menu.Items.length : Int)) :
    ∃ item, menu.Items.get? (n - 1).toNat = some item ∧
      loopBody sz menu (.ok s) failure =
        ⟨.dispatch (n - 1),
          drawAndPrompt menu ++
            ([.clearScreen, .stdout (printColoredText item.Color item.Label), .stdout "\n"]
              ++ runCommand item.Command (failure item.Command)
              ++ [.stdout ("The command [" ++ item.Command ++ "] has finshed executing\n"),
                  .sleep 5]),
          ⟨menu, false⟩⟩ := by
  have h0 : ¬ (n - 1 < 0) := by omega
  have hlt : (n - 1).toNat < menu.Items.length := by omega
  refine ⟨menu.Items.get ⟨_, hlt⟩, List.get?_eq_get hlt, ?_⟩
  unfold loopBody
  have hr : ¬ (n < 1 ∨ n > (menu.Items.length : Int)) := by omega
  simp only [hq, if_false, ha, hr, dispatch, h0, List.get?_eq_get hlt]

/-- C1: one pass of the input loop on a line `s`, for a menu of any number of
items `K` (so also for `0 ≤ K ≤ 10`).  It quits, with nothing done beyond the
drawing and the prompt, exactly when `s` is `"q"`.  Otherwise it dispatches
exactly when `strconv.Atoi` parses `s` to an integer `n` with `1 ≤ n ≤ K`, and
dispatching means: the item at index `n - 1` exists and the pass clears the
screen, writes its label in its colour, runs its command with bash, writes the
error if the run failed, writes the notice and sleeps 5 seconds; a command is
run in no other case.  Otherwise the pass takes the invalid-option branch: it
writes the two lines of the invalid-option message, sleeps 2 seconds, runs no
command and goes on with the same menu.  With no items no line dispatches. -/
theorem loopBody_transition (sz : IntSize) (menu : Menu) (s : String)
    (failure : String → Option String) :
    (loopBody sz menu (.ok s) failure = ⟨.quit, drawAndPrompt menu, ⟨menu, true⟩⟩ ↔ s = "q") ∧
    ((loopBody sz menu (.ok s) failure).next.quit = true ↔ s = "q") ∧
    ((∃ n item, Atoi sz s = .ok n ∧ menu.Items.get? (n - 1).toNat = some item ∧
        loopBody sz menu (.ok s) failure =
          ⟨.dispatch (n - 1),
            drawAndPrompt menu ++
              ([.clearScreen, .stdout (printColoredText item.Color item.Label), .stdout "\n",
                .bash item.Command] ++
              (match failure item.Command with
               | some err => [.stdout ("Error running command: " ++ err ++ "\n")]
               | none => []) ++
              [.stdout ("The command [" ++ item.Command ++ "] has finshed executing\n"),
               .sleep 5]),
            ⟨menu, false⟩⟩) ↔
      s ≠ "q" ∧ ∃ n, Atoi sz s = .ok n ∧ 1 ≤ n ∧ n ≤ (menu.Items.length : Int)) ∧
    (commandsRun (loopBody sz menu (.ok s) failure).effects ≠ [] ↔
      s ≠ "q" ∧ ∃ n, Atoi sz s = .ok n ∧ 1 ≤ n ∧ n ≤ (menu.Items.length : Int)) ∧
    (loopBody sz menu (.ok s) failure =
        ⟨.invalid,
          drawAndPrompt menu ++
            [.stdout (">" ++ stringOfInt menu.Items.length ++ "\n"),
             .stdout "Invalid option. Please try again.\n",
             .sleep 2],
          ⟨menu, false⟩⟩ ↔
      s ≠ "q" ∧ ¬ ∃ n, Atoi sz s = .ok n ∧ 1 ≤ n ∧ n ≤ (menu.Items.length : Int)) ∧
    ((loopBody sz menu (.ok s) failure).branch = .quit ↔ s = "q") ∧
    ((∃ idx, (loopBody sz menu (.ok s) failure).branch = .dispatch idx) ↔
      s ≠ "q" ∧ ∃ n, Atoi sz s = .ok n ∧ 1 ≤ n ∧ n ≤ (menu.Items.length : Int)) ∧
    ((loopBody sz menu (.ok s) failure).branch = .invalid ↔
      s ≠ "q" ∧ ¬ ∃ n, Atoi sz s = .ok n ∧ 1 ≤ n ∧ n ≤ (menu.Items.length : Int)) ∧
    ((loopBody sz menu (.ok s) failure).branch = .invalid →
      commandsRun (loopBody sz menu (.ok s) failure).effects = [] ∧
      (loopBody sz menu (.ok s) failure).next = ⟨menu, false⟩) ∧
    (menu.Items.length = 0 →
      commandsRun (loopBody sz menu (.ok s) failure).effects = [] ∧
      ∀ idx, (loopBody sz menu (.ok s) failure).branch ≠ .dispatch idx) := by
  by_cases hq : s = "q"
  · subst hq
    rw [loopBody_q]
    simp [commandsRun_drawAndPrompt]
  · by_cases h : ∃ n, Atoi sz s = .ok n ∧ 1 ≤ n ∧ n ≤ (menu.Items.length : Int)
    · obtain ⟨n, ha, h1, h2⟩ := h
      obtain ⟨item, hitem, e⟩ := loopBody_dispatch sz menu s failure n hq ha h1 h2
      have hex : ∃ n, Atoi sz s = .ok n ∧ 1 ≤ n ∧ n ≤ (menu.Items.length : Int) :=
        ⟨n, ha, h1, h2⟩
      have hrun : runCommand item.Command (failure item.Command) =
          .bash item.Command ::
            (match failure item.Command with
             | some err => [.stdout ("Error running command: " ++ err ++ "\n")]
             | none => []) := rfl
      have hcmd : commandsRun (loopBody sz menu (.ok s) failure).effects = [item.Command] := by
        rw [e]
        simp only [commandsRun_append, commandsRun_drawAndPrompt, commandsRun_runCommand]
        rfl
      refine ⟨?_, ?_, ?_, ?_, ?_, ?_, ?_, ?_, ?_, ?_⟩
      · rw [e]; simp [hq]
      · rw [e]; simp [hq]
      · refine ⟨fun _ => ⟨hq, hex⟩, fun _ => ⟨n, item, ha, hitem, ?_⟩⟩
        rw [e, hrun]
        simp only [List.append_assoc, List.cons_append, List.nil_append]
      · rw [hcmd]; simp [hq, hex]
      · rw [e]; simp [hq, hex]
      · rw [e]; simp [hq]
      · rw [e]; simp [hq, hex]
      · rw [e]; simp [hq, hex]
      · rw [e]; simp
      · intro h0
        rw [h0] at h2
        simp only [Nat.cast_zero] at h2
        omega
    · have e := loopBody_invalid sz menu s failure hq h
      have hcmd : commandsRun (loopBody sz menu (.ok s) failure).effects = [] := by
        rw [e]
        simp only [commandsRun_append, commandsRun_drawAndPrompt]
        rfl
      refine ⟨?_, ?_, ?_, ?_, ?_, ?_, ?_, ?_, ?_, ?_⟩
      · rw [e]; simp [hq]
      · rw [e]; simp [hq]
      · refine ⟨?_, fun hh => absurd hh.2 h⟩
        rintro ⟨n, item, ha, _, he⟩
        rw [e] at he
        simp at he
      · rw [hcmd]; simp [h]
      · rw [← e]; simp [hq, h]
      · rw [e]; simp [hq]
      · rw [e]; simp [hq, h]
      · rw [e]; simp [hq, h]
      · intro _; exact ⟨hcmd, by rw [e]⟩
      · intro _; refine ⟨hcmd, ?_⟩
        rw [e]; simp

theorem selects_iff (sz : IntSize) (K : Nat) (hK : K ≤ 10) (s : String) :
    (∃ n, Atoi sz s = .ok n ∧ 1 ≤ n ∧ n ≤ (K : Int)) ↔ selects K s := by
  constructor
  · rintro ⟨n, ha, h1, h2⟩
    obtain ⟨ds, hne, hall, (⟨h, hn, _⟩ | ⟨_, hn, _⟩)⟩ := (Atoi_ok_iff sz s n).1 ha
    · refine ⟨ds, hne, hall, h, ?_, ?_⟩ <;> omega
    · omega
  · rintro ⟨ds, hne, hall, h, h1, h2⟩
    refine ⟨(decimalValue ds : Int), (Atoi_ok_iff sz s _).2 ⟨ds, hne, hall, Or.inl ⟨h, rfl, ?_⟩⟩,
      by omega, by omega⟩
    have : (10:Nat) < 2 ^ (sz.bits - 1) := by cases sz <;> simp [IntSize.bits]
    omega

/-- C2, counterexample: on the example menu of one item the lines `"+1"` and
`"01"` run item 1, although neither is `"q"` nor the decimal numeral `"1"`. -/
theorem plus_one_is_dispatched :
    (loopBody .bits64 exampleMenu (.ok "+1") (fun _ => none)).branch = .dispatch 0 ∧
    (loopBody .bits64 exampleMenu (.ok "01") (fun _ => none)).branch = .dispatch 0 ∧
    exampleMenu.Items.length = 1 ∧
    ¬ ("+1" = "q" ∨ "+1" ∈ decimalNumerals exampleMenu.Items.length) ∧
    ¬ ("01" = "q" ∨ "01" ∈ decimalNumerals exampleMenu.Items.length) := by
  decide

/-- C2, amended: for a menu of `K ≤ 10` items the lines that do not take the
invalid-option branch are exactly `"q"` and the lines that `strconv.Atoi` reads
as an integer from 1 to `K`: an optional plus sign and decimal digits, leading
zeros allowed.  Every other line, `"Q"` among them, takes the invalid-option
branch, which leaves the state as it was. -/
theorem valid_inputs (sz : IntSize) (menu : Menu) (s : String)
    (failure : String → Option String) (hK : menu.Items.length ≤ 10) :
    ((loopBody sz menu (.ok s) failure).branch ≠ .invalid ↔
      s = "q" ∨ selects menu.Items.length s) ∧
    ((loopBody sz menu (.ok s) failure).branch = .invalid →
      (loopBody sz menu (.ok s) failure).next = ⟨menu, false⟩) ∧
    (s = "Q" → (loopBody sz menu (.ok s) failure).branch = .invalid) := by
  have hiff := loopBody_invalid_iff sz menu s failure
  refine ⟨?_, ?_, ?_⟩
  · rw [Ne, hiff, ← selects_iff sz _ hK s]
    constructor
    · intro h
      by_cases hq : s = "q"
      · exact Or.inl hq
      · exact Or.inr (by_contra fun hn => h ⟨hq, hn⟩)
    · rintro (hq | hs) ⟨hq', hn⟩
      · exact hq' hq
      · exact hn hs
  · intro h
    obtain ⟨hq, hn⟩ := hiff.1 h
    rw [loopBody_invalid sz menu s failure hq hn]
  · rintro rfl
    rw [hiff]
    refine ⟨by decide, ?_⟩
    rintro ⟨n, hn, _⟩
    have herr : Atoi sz "Q" = .error .ErrSyntax := by cases sz <;> rfl
    rw [herr] at hn
    cases hn

theorem valid_inputs_witness :
    ((loopBody .bits64 exampleMenu (.ok "+1") (fun _ => none)).branch ≠ .invalid ↔
      "+1" = "q" ∨ selects exampleMenu.Items.length "+1") ∧
    ((loopBody .bits64 exampleMenu (.ok "+1") (fun _ => none)).branch = .invalid →
      (loopBody .bits64 exampleMenu (.ok "+1") (fun _ => none)).next = ⟨exampleMenu, false⟩) ∧
    ("+1" = "Q" → (loopBody .bits64 exampleMenu (.ok "+1") (fun _ => none)).branch = .invalid) :=
  valid_inputs .bits64 exampleMenu "+1" (fun _ => none) (by decide)

/-- C3: when a line is accepted as selection `i` with `1 ≤ i ≤ K`, the index
`i - 1` is within the item list, the label is written in the colour of the item
at that position, and the one command handed to bash is the command of the
item at that position, whatever the labels of the other items. -/
theorem dispatch_by_position (sz : IntSize) (menu : Menu) (s : String)
    (failure : String → Option String) (i : Int)
    (hq : s ≠ "q") (ha : Atoi sz s = .ok i) (h1 : 1 ≤ i) (h2 : i ≤ (menu.Items.length : Int)) :
    0 ≤ i - 1 ∧ (i - 1).toNat < menu.Items.length ∧
    ∃ item, menu.Items.get? (i - 1).toNat = some item ∧
      (loopBody sz menu (.ok s) failure).branch = .dispatch (i - 1) ∧
      Effect.indexPanic ∉ (loopBody sz menu (.ok s) failure).effects ∧
      (∃ rest, (loopBody sz menu (.ok s) failure).effects =
        drawAndPrompt menu ++
          (.clearScreen :: .stdout (printColoredText item.Color item.Label) :: rest)) ∧
      commandsRun (loopBody sz menu (.ok s) failure).effects = [item.Command] := by
  obtain ⟨item, hitem, e⟩ := loopBody_dispatch sz menu s failure i hq ha h1 h2
  refine ⟨by omega, by omega, item, hitem, ?_⟩
  rw [e]
  refine ⟨rfl, ?_, ⟨_, rfl⟩, ?_⟩
  · cases hf : failure item.Command <;> simp [drawAndPrompt, runCommand, hf]
  · simp only [commandsRun_append, commandsRun_drawAndPrompt, commandsRun_runCommand]
    rfl

theorem dispatch_by_position_witness :
    0 ≤ (2 : Int) - 1 ∧ ((2 : Int) - 1).toNat < twins.Items.length ∧
    ∃ item, twins.Items.get? ((2 : Int) - 1).toNat = some item ∧
      (loopBody .bits64 twins (.ok "2") (fun _ => none)).branch = .dispatch (2 - 1) ∧
      Effect.indexPanic ∉ (loopBody .bits64 twins (.ok "2") (fun _ => none)).effects ∧
      (∃ rest, (loopBody .bits64 twins (.ok "2") (fun _ => none)).effects =
        drawAndPrompt twins ++
          (.clearScreen :: .stdout (printColoredText item.Color item.Label) :: rest)) ∧
      commandsRun (loopBody .bits64 twins (.ok "2") (fun _ => none)).effects = [item.Command] :=
  dispatch_by_position .bits64 twins "2" (fun _ => none) 2 (by decide) rfl
    (by decide) (by decide)

/-- C9: the effects of a dispatch, whether the child process succeeds or
fails: clear the screen, write the label in its colour, run `bash -c command`,
write an error message exactly when the run failed, write the notice that the
command finished, sleep 5 seconds; the loop then goes on with the same menu. -/
theorem executor_completion (sz : IntSize) (menu : Menu) (s : String)
    (failure : String → Option String) (i : Int)
    (hq : s ≠ "q") (ha : Atoi sz s = .ok i) (h1 : 1 ≤ i) (h2 : i ≤ (menu.Items.length : Int)) :
    ∃ item, menu.Items.get? (i - 1).toNat = some item ∧
      (loopBody sz menu (.ok s) failure).effects =
        drawAndPrompt menu ++
          [.clearScreen, .stdout (printColoredText item.Color item.Label), .stdout "\n",
           .bash item.Command] ++
          (match failure item.Command with
           | some err => [.stdout ("Error running command: " ++ err ++ "\n")]
           | none => []) ++
          [.stdout ("The command [" ++ item.Command ++ "] has finshed executing\n"), .sleep 5] ∧
      (loopBody sz menu (.ok s) failure).next = ⟨menu, false⟩ := by
  obtain ⟨item, hitem, e⟩ := loopBody_dispatch sz menu s failure i hq ha h1 h2
  refine ⟨item, hitem, ?_⟩
  rw [e]
  refine ⟨?_, rfl⟩
  cases failure item.Command <;> simp [runCommand]

theorem executor_completion_witness :
    ∃ item, exampleMenu.Items.get? ((1 : Int) - 1).toNat = some item ∧
      (loopBody .bits64 exampleMenu (.ok "1") (fun _ => some "exit status 2")).effects =
        drawAndPrompt exampleMenu ++
          [.clearScreen, .stdout (printColoredText item.Color item.Label), .stdout "\n",
           .bash item.Command] ++
          (match (fun _ => some "exit status 2") item.Command with
           | some err => [.stdout ("Error running command: " ++ err ++ "\n")]
           | none => []) ++
          [.stdout ("The command [" ++ item.Command ++ "] has finshed executing\n"), .sleep 5] ∧
      (loopBody .bits64 exampleMenu (.ok "1") (fun _ => some "exit status 2")).next =
        ⟨exampleMenu, false⟩ :=
  executor_completion .bits64 exampleMenu "1" (fun _ => some "exit status 2") 1 (by decide) rfl
    (by decide) (by decide)

theorem stringOfInt_small (K : Nat) (hK : K ≤ 10) :
    stringOfInt (K : Int) = String.singleton (Char.ofNat K) ∧ (Char.ofNat K).toNat = K ∧
      stringOfInt (K : Int) ≠ fmtD (K : Int) := by
  interval_cases K <;> decide

/-- C10: on the invalid-option branch of a menu of `K ≤ 10` items the program
writes `">"` followed by the single character of code point `K` and a line
break, then `"Invalid option. Please try again."` and a line break, then sleeps
2 seconds.  The character is a control character, not the decimal numeral of
`K`; for `K = 10` it is itself the line feed. -/
theorem invalid_option_output (sz : IntSize) (menu : Menu) (s : String)
    (failure : String → Option String) (hK : menu.Items.length ≤ 10)
    (hinv : (loopBody sz menu (.ok s) failure).branch = .invalid) :
    (loopBody sz menu (.ok s) failure).effects =
      drawAndPrompt menu ++
        [.stdout (">" ++ String.singleton (Char.ofNat menu.Items.length) ++ "\n"),
         .stdout "Invalid option. Please try again.\n",
         .sleep 2] ∧
    (Char.ofNat menu.Items.length).toNat = menu.Items.length ∧
    menu.Items.length < 32 ∧
    String.singleton (Char.ofNat menu.Items.length) ≠ fmtD (menu.Items.length : Int) := by
  obtain ⟨hq, hn⟩ := (loopBody_invalid_iff sz menu s failure).1 hinv
  obtain ⟨e1, e2, e3⟩ := stringOfInt_small menu.Items.length hK
  rw [loopBody_invalid sz menu s failure hq hn, e1]
  rw [e1] at e3
  exact ⟨rfl, e2, by omega, e3⟩

theorem invalid_option_output_witness :
    (loopBody .bits64 exampleMenu (.ok "7") (fun _ => none)).effects =
      drawAndPrompt exampleMenu ++
        [.stdout (">" ++ String.singleton (Char.ofNat exampleMenu.Items.length) ++ "\n"),
         .stdout "Invalid option. Please try again.\n",
         .sleep 2] ∧
    (Char.ofNat exampleMenu.Items.length).toNat = exampleMenu.Items.length ∧
    exampleMenu.Items.length < 32 ∧
    String.singleton (Char.ofNat exampleMenu.Items.length) ≠
      fmtD (exampleMenu.Items.length : Int) :=
  invalid_option_output .bits64 exampleMenu "7" (fun _ => none) (by decide) (by decide)

theorem loopBody_effects_start (sz : IntSize) (menu : Menu) (read : Except String String)
    (failure : String → Option String) :
    ∃ rest, (loopBody sz menu read failure).effects = drawAndPrompt menu ++ rest := by
  cases read with
  | error err => exact ⟨_, rfl⟩
  | ok s =>
    by_cases hq : s = "q"
    · subst hq; rw [loopBody_q]; exact ⟨[], by simp⟩
    · by_cases h : ∃ n, Atoi sz s = .ok n ∧ 1 ≤ n ∧ n ≤ (menu.Items.length : Int)
      · obtain ⟨n, ha, h1, h2⟩ := h
        obtain ⟨item, _, e⟩ := loopBody_dispatch sz menu s failure n hq ha h1 h2
        rw [e]; exact ⟨_, rfl⟩
      · rw [loopBody_invalid sz menu s failure hq h]; exact ⟨_, rfl⟩

theorem mainLoop_start (sz : IntSize) (menu : Menu) (stdin : List String)
    (failure : Nat → String → Option String) :
    ∃ rest, mainLoop sz menu stdin failure = drawAndPrompt menu ++ rest := by
  cases stdin with
  | nil => exact loopBody_effects_start sz menu _ _
  | cons line more =>
    obtain ⟨r, hr⟩ := loopBody_effects_start sz menu (.ok line) (failure 0)
    simp only [mainLoop]
    split <;> rw [hr]
    · exact ⟨r ++ [.clearScreen], by rw [List.append_assoc]⟩
    · exact ⟨r, rfl⟩
    · exact ⟨r, rfl⟩
    · exact ⟨r ++ _, (List.append_assoc _ _ _)⟩

/-- C4: after a successful load the loop is entered, with the whole item list
drawn and a line read, exactly when the menu has at most 10 items; with more
items the program writes the two lines of the over-limit message and nothing
else: no menu, no read, no command. -/
theorem item_cap (sz : IntSize) (menu : Menu) (stdin : List String)
    (failure : Nat → String → Option String) :
    (menu.Items.length ≤ 10 →
      ∃ rest, runMenu sz menu stdin failure =
        .clearScreen ::
        .stdout (printMenu menu.Title.Label menu.Title.Color menu.Items) ::
        .stdout ("Select an option (1 - " ++ fmtD menu.Items.length ++ ", or q to quit): ") ::
        .readLine :: rest) ∧
    (10 < menu.Items.length →
      runMenu sz menu stdin failure =
        [ .stdout "Maximum limit of 10 menu items exceeded.\n",
          .stdout "Please reduce the number of items in the menu.\n" ]) ∧
    (Effect.readLine ∈ runMenu sz menu stdin failure ↔ menu.Items.length ≤ 10) ∧
    (Effect.clearScreen ∈ runMenu sz menu stdin failure ↔ menu.Items.length ≤ 10) ∧
    (10 < menu.Items.length → commandsRun (runMenu sz menu stdin failure) = []) := by
  by_cases h : menu.Items.length ≤ 10
  · have hc : ¬ ((menu.Items.length : Int) > 10) := by omega
    obtain ⟨rest, hr⟩ := mainLoop_start sz menu stdin failure
    have e : runMenu sz menu stdin failure = drawAndPrompt menu ++ rest := by
      simp only [runMenu, hc, if_false, hr]
    rw [e]
    refine ⟨fun _ => ⟨rest, rfl⟩, fun h' => absurd h (by omega), ?_, ?_, fun h' => absurd h (by omega)⟩
    · simp [drawAndPrompt, h]
    · simp [drawAndPrompt, h]
  · have hc : (menu.Items.length : Int) > 10 := by omega
    have e : runMenu sz menu stdin failure =
        [ .stdout "Maximum limit of 10 menu items exceeded.\n",
          .stdout "Please reduce the number of items in the menu.\n" ] := by
      simp only [runMenu, hc, if_true]
    rw [e]
    refine ⟨fun h' => absurd h' h, fun _ => rfl, ?_, ?_, fun _ => rfl⟩
    · simp [h]
    · simp [h]

theorem item_cap_witness :
    runMenu .bits64 elevenItems ["1", "q"] (fun _ _ => none) =
      [ .stdout "Maximum limit of 10 menu items exceeded.\n",
        .stdout "Please reduce the number of items in the menu.\n" ] :=
  (item_cap .bits64 elevenItems ["1", "q"] (fun _ _ => none)).2.1 (by decide)

/-- C5: `getColorCode` maps the eight colour names to the distinct codes 30 to
37 and every other string to the reset code 0, so that `printColoredText`
writes a text of unknown colour between two reset sequences. -/
theorem color_resolution :
    getColorCode "black" = "30" ∧ getColorCode "red" = "31" ∧ getColorCode "green" = "32" ∧
    getColorCode "yellow" = "33" ∧ getColorCode "blue" = "34" ∧ getColorCode "magenta" = "35" ∧
    getColorCode "cyan" = "36" ∧ getColorCode "white" = "37" ∧
    (["black", "red", "green", "yellow", "blue", "magenta", "cyan", "white"].map
      getColorCode).Nodup ∧
    (∀ color : String,
      color ∉ ["black", "red", "green", "yellow", "blue", "magenta", "cyan", "white"] →
        getColorCode color = "0" ∧
        ∀ t : String, printColoredText color t = "\x1b[0m" ++ t ++ "\x1b[0m") ∧
    getColorCode "" = "0" ∧ getColorCode "Red" = "0" ∧ getColorCode "gren" = "0" := by
  refine ⟨rfl, rfl, rfl, rfl, rfl, rfl, rfl, rfl, by decide, ?_, rfl, rfl, rfl⟩
  intro color hc
  simp only [List.mem_cons, List.mem_singleton, List.not_mem_nil, or_false, not_or] at hc
  obtain ⟨h1, h2, h3, h4, h5, h6, h7, h8⟩ := hc
  have e : getColorCode color = "0" := by
    unfold getColorCode
    split <;> simp_all
  refine ⟨e, fun t => ?_⟩
  simp only [printColoredText, e]
  rfl

theorem color_resolution_witness :
    getColorCode "Red" = "0" ∧
      ∀ t : String, printColoredText "Red" t = "\x1b[0m" ++ t ++ "\x1b[0m" :=
  color_resolution.2.2.2.2.2.2.2.2.2.1 "Red" (by decide)

/-! ## The renderer -/

set_option maxRecDepth 100000 in
/-- C6, at the failing input: with ten items labelled `Item 1` to `Item 10`
every printed line is 54 visible characters wide but the row of item 10, which
is 55 wide: its index has two digits and the padding does not account for it. -/
theorem tenth_row_is_wider :
    (printedLines (printMenu "My Menu" "blue" tenItems)).map visibleWidth =
      [54, 54, 54, 54, 54, 54, 54, 54, 54, 54, 54, 54, 54, 54, 54, 54, 54, 54, 54, 54, 54, 55, 54]
    := by decide

/-- C7, counterexample: the title `My Menu`, 7 bytes long, is written after 22
blanks, not after `(54 - 7) / 2 = 23`. -/
theorem title_has_22_blanks :
    leadingBlanks (titleLine "My Menu" "blue") = 22 ∧ len "My Menu" < 54 ∧
      ((22 : Nat) : Int) ≠ Int.tdiv (54 - len "My Menu") 2 := by
  decide

/-- C7, amended: for every title shorter than the box width of 54 the title
line is the left border, `max 1 ((51 - len title) / 2)` blanks, the coloured
title, `max 1 (52 - (51 - len title) / 2 - len title)` blanks and the right
border; for a title of at most 49 bytes the first number is
`(51 - len title) / 2`. -/
theorem title_padding (title color : String) (h : len title < 54) :
    titleLine title color =
      "║" ++ spaces (max 1 ((51 - title.utf8ByteSize) / 2))
        ++ printColoredText color title
        ++ spaces (max 1 (52 - (51 - title.utf8ByteSize) / 2 - title.utf8ByteSize)) ++ "║\n" ∧
    (len title ≤ 49 →
      max 1 ((51 - title.utf8ByteSize) / 2) = (51 - title.utf8ByteSize) / 2) := by
  have hn : title.utf8ByteSize < 54 := by
    simp only [len] at h; omega
  refine ⟨?_, fun h49 => ?_⟩
  · generalize hk : title.utf8ByteSize = k at hn
    have hl : len title = (k : Int) := by simp [len, hk]
    simp only [titleLine, hl]
    interval_cases k <;> rfl
  · simp only [len] at h49
    omega

theorem title_padding_witness :
    titleLine "My Menu" "blue" =
      "║" ++ spaces (max 1 ((51 - "My Menu".utf8ByteSize) / 2))
        ++ printColoredText "blue" "My Menu"
        ++ spaces (max 1 (52 - (51 - "My Menu".utf8ByteSize) / 2 - "My Menu".utf8ByteSize))
        ++ "║\n" ∧
    (len "My Menu" ≤ 49 →
      max 1 ((51 - "My Menu".utf8ByteSize) / 2) = (51 - "My Menu".utf8ByteSize) / 2) :=
  title_padding "My Menu" "blue" (by decide)

theorem utf8Size_ascii (c : Char) (h : c.toNat < 128) : c.utf8Size = 1 := by
  have key : ∀ n, n < 128 → (Char.ofNat n).utf8Size = 1 := by
    intro n hn
    interval_cases n <;> rfl
  have := key c.toNat h
  rwa [Char.ofNat_toNat] at this

theorem utf8ByteSize_go_ascii (l : List Char) (h : ∀ c ∈ l, c.toNat < 128) :
    String.utf8ByteSize.go l = l.length := by
  induction l with
  | nil => rfl
  | cons c cs ih =>
    simp only [String.utf8ByteSize.go, List.length_cons]
    rw [ih (fun c hc => h c (by simp [hc])), utf8Size_ascii c (h c (by simp))]

theorem len_printable (s : String) (h : printable s) : len s = (s.data.length : Int) := by
  simp only [len, String.utf8ByteSize]
  rw [utf8ByteSize_go_ascii s.data (fun c hc => by have := h c hc; omega)]

theorem linesAux_line (acc l rest : List Char) (h : '\n' ∉ l) :
    linesAux acc (l ++ '\n' :: rest) = (acc.reverse ++ l) :: linesAux [] rest := by
  induction l generalizing acc with
  | nil => simp [linesAux]
  | cons c cs ih =>
    have hc : c ≠ '\n' := by
      intro e; apply h; simp [e]
    have hcs : '\n' ∉ cs := by
      intro e; apply h; simp [e]
    show linesAux acc (c :: (cs ++ '\n' :: rest)) = _
    rw [linesAux, if_neg hc, ih _ hcs]
    simp

theorem stripEscapes_plain (l r : List Char) (h : '\x1b' ∉ l) :
    stripEscapes false (l ++ r) = l ++ stripEscapes false r := by
  induction l with
  | nil => rfl
  | cons c cs ih =>
    have hc : c ≠ '\x1b' := by
      intro e; apply h; simp [e]
    have hcs : '\x1b' ∉ cs := by
      intro e; apply h; simp [e]
    show stripEscapes false (c :: (cs ++ r)) = _
    rw [stripEscapes, if_neg hc, ih hcs]
    rfl

theorem stripEscapes_inside (l r : List Char) (h : 'm' ∉ l) :
    stripEscapes true (l ++ 'm' :: r) = stripEscapes false r := by
  induction l with
  | nil => simp [stripEscapes]
  | cons c cs ih =>
    have hc : c ≠ 'm' := by
      intro e; apply h; simp [e]
    have hcs : 'm' ∉ cs := by
      intro e; apply h; simp [e]
    show stripEscapes true (c :: (cs ++ 'm' :: r)) = _
    rw [stripEscapes, if_neg hc, ih hcs]

theorem getColorCode_no_m (color : String) : 'm' ∉ (getColorCode color).data := by
  unfold getColorCode
  split <;> decide

theorem getColorCode_no_newline (color : String) : '\n' ∉ (getColorCode color).data := by
  unfold getColorCode
  split <;> decide

theorem printColoredText_data (color text : String) :
    (printColoredText color text).data =
      '\x1b' :: '[' :: ((getColorCode color).data ++ 'm' :: (text.data ++ ['\x1b', '[', '0', 'm'])) := by
  simp only [printColoredText, String.data_append]
  simp only [List.append_assoc]
  rfl

theorem visibleWidth_colored (pre post : List Char) (color text : String)
    (h1 : '\x1b' ∉ pre) (h2 : '\x1b' ∉ text.data) (h3 : '\x1b' ∉ post) :
    visibleWidth (pre ++ ((printColoredText color text).data ++ post)) =
      pre.length + text.data.length + post.length := by
  have hm : 'm' ∉ '[' :: (getColorCode color).data := by
    intro h
    rcases List.mem_cons.1 h with h | h
    · exact absurd h (by decide)
    · exact getColorCode_no_m color h
  have h0 : 'm' ∉ ['[', '0'] := by decide
  unfold visibleWidth
  rw [printColoredText_data, stripEscapes_plain _ _ h1]
  have e1 : '\x1b' :: '[' :: ((getColorCode color).data ++ 'm' ::
      (text.data ++ ['\x1b', '[', '0', 'm'])) ++ post =
      '\x1b' :: (('[' :: (getColorCode color).data) ++ 'm' ::
        (text.data ++ ('\x1b' :: (['[', '0'] ++ 'm' :: post)))) := by
    simp only [List.cons_append, List.append_assoc, List.nil_append]
  rw [e1, stripEscapes]
  simp only [if_true]
  rw [stripEscapes_inside _ _ hm, stripEscapes_plain _ _ h2, stripEscapes]
  simp only [if_true]
  rw [stripEscapes_inside _ _ h0]
  have := stripEscapes_plain post [] h3
  simp only [List.append_nil] at this
  rw [this]
  simp only [List.length_append, stripEscapes, List.length_nil]
  omega

theorem printable_no_esc (s : String) (h : printable s) : '\x1b' ∉ s.data := by
  intro hc
  have := h _ hc
  revert this
  decide

theorem printable_no_newline (s : String) (h : printable s) : '\n' ∉ s.data := by
  intro hc
  have := h _ hc
  revert this
  decide

theorem spaces_data (n : Nat) : (spaces n).data = List.replicate n ' ' := rfl

theorem replicate_no (c : Char) (hc : c ≠ ' ') (n : Nat) : c ∉ List.replicate n ' ' := by
  intro h
  exact hc (List.eq_of_mem_replicate h)

theorem fmtStarS_blank (w : Nat) (h1 : 1 ≤ w) (h2 : w ≤ 60) :
    fmtStarS (w : Int) " " = spaces w := by
  interval_cases w <;> rfl

theorem rowHead_facts (i : Nat) (h : i ≤ 8) :
    ("╟─── " ++ fmtD ((i : Int) + 1) ++ ". ").data.length = 8 ∧
    '\x1b' ∉ ("╟─── " ++ fmtD ((i : Int) + 1) ++ ". ").data ∧
    '\n' ∉ ("╟─── " ++ fmtD ((i : Int) + 1) ++ ". ").data := by
  interval_cases i <;> decide

/-- A line of the menu that holds one coloured text between plain text. -/
theorem colored_line (pre post : List Char) (color text : String) (rest : List Char)
    (h1 : '\x1b' ∉ pre) (h2 : '\x1b' ∉ post) (h3 : '\n' ∉ pre) (h4 : '\n' ∉ post)
    (ht : printable text)
    (hw : pre.length + text.data.length + post.length = 54)
    (hrest : ∀ line ∈ linesAux [] rest, visibleWidth line = 54) :
    ∀ line ∈ linesAux [] (pre ++ ((printColoredText color text).data ++ post) ++ '\n' :: rest),
      visibleWidth line = 54 := by
  have hc : '\n' ∉ (printColoredText color text).data := by
    rw [printColoredText_data]
    intro h
    simp only [List.mem_cons, List.mem_append, List.not_mem_nil, or_false] at h
    rcases h with h | h | h | h | h | h | h | h | h <;>
      first
        | exact absurd h (by decide)
        | exact getColorCode_no_newline color h
        | exact printable_no_newline text ht h
  have hn : '\n' ∉ pre ++ ((printColoredText color text).data ++ post) := by
    intro h
    rcases List.mem_append.1 h with h | h
    · exact h3 h
    · rcases List.mem_append.1 h with h | h
      · exact hc h
      · exact h4 h
  rw [linesAux_line [] _ rest hn]
  intro line hl
  rcases List.mem_cons.1 hl with rfl | hl
  · simp only [List.reverse_nil, List.nil_append]
    rw [visibleWidth_colored pre post color text h1 (printable_no_esc text ht) h2]
    exact hw
  · exact hrest line hl

theorem closed_line (piece content rest : List Char) (hp : piece = content ++ ['\n'])
    (hn : '\n' ∉ content) (hw : visibleWidth content = 54)
    (hrest : ∀ line ∈ linesAux [] rest, visibleWidth line = 54) :
    ∀ line ∈ linesAux [] (piece ++ rest), visibleWidth line = 54 := by
  subst hp
  have e : content ++ ['\n'] ++ rest = content ++ '\n' :: rest := by simp
  rw [e, linesAux_line [] _ rest hn]
  intro line hl
  rcases List.mem_cons.1 hl with rfl | hl
  · simpa using hw
  · exact hrest line hl

theorem separator_line (rest : List Char)
    (hrest : ∀ line ∈ linesAux [] rest, visibleWidth line = 54) :
    ∀ line ∈ linesAux [] (separator.data ++ rest), visibleWidth line = 54 :=
  closed_line separator.data separator.data.dropLast rest (by decide) (by decide) (by decide) hrest

theorem topBorder_line (rest : List Char)
    (hrest : ∀ line ∈ linesAux [] rest, visibleWidth line = 54) :
    ∀ line ∈ linesAux [] (topBorder.data ++ rest), visibleWidth line = 54 :=
  closed_line topBorder.data topBorder.data.dropLast rest (by decide) (by decide) (by decide) hrest

theorem bottomBorder_line :
    ∀ line ∈ linesAux [] bottomBorder.data, visibleWidth line = 54 := by
  decide

theorem itemRow_lines (n i : Nat) (item : MenuItem) (rest : List Char) (hi : i ≤ 8)
    (hp : printable item.Label) (hl : len item.Label ≤ 44)
    (hrest : ∀ line ∈ linesAux [] rest, visibleWidth line = 54) :
    ∀ line ∈ linesAux [] ((itemRow n i item).data ++ rest), visibleWidth line = 54 := by
  obtain ⟨h8, hesc, hnl⟩ := rowHead_facts i hi
  have hk := len_printable item.Label hp
  have hk44 : item.Label.data.length ≤ 44 := by omega
  have hpad : fmtStarS (45 - len item.Label) " " = spaces (45 - item.Label.data.length) := by
    rw [hk]
    have : (45 : Int) - (item.Label.data.length : Int) = ((45 - item.Label.data.length : Nat) : Int) := by
      omega
    rw [this]
    exact fmtStarS_blank _ (by omega) (by omega)
  have e : (itemRow n i item).data ++ rest =
      ("╟─── " ++ fmtD ((i : Int) + 1) ++ ". ").data ++
        ((printColoredText item.Color item.Label).data ++
          (List.replicate (45 - item.Label.data.length) ' ' ++ ['║'])) ++
        '\n' :: ((if (i : Int) < (n : Int) - 1 then separator else "").data ++ rest) := by
    simp only [itemRow, hpad, String.data_append, spaces_data, List.append_assoc]
    rfl
  rw [e]
  apply colored_line _ _ item.Color item.Label _ hesc _ hnl _ hp
  · simp only [List.length_append, List.length_replicate, List.length_singleton]
    omega
  · split_ifs
    · exact separator_line rest hrest
    · exact hrest
  · simp only [List.mem_append, List.mem_singleton, not_or]
    exact ⟨replicate_no _ (by decide) _, by decide⟩
  · simp only [List.mem_append, List.mem_singleton, not_or]
    exact ⟨replicate_no _ (by decide) _, by decide⟩

theorem itemRows_lines (n : Nat) (items : List MenuItem) :
    ∀ (i : Nat) (rest : List Char), i + items.length ≤ 9 →
      (∀ item ∈ items, printable item.Label ∧ len item.Label ≤ 44) →
      (∀ line ∈ linesAux [] rest, visibleWidth line = 54) →
      ∀ line ∈ linesAux [] ((itemRows n i items).data ++ rest), visibleWidth line = 54 := by
  induction items with
  | nil =>
    intro i rest _ _ hrest
    exact hrest
  | cons item more ih =>
    intro i rest hi hall hrest
    simp only [List.length_cons] at hi
    have e : (itemRows n i (item :: more)).data ++ rest =
        (itemRow n i item).data ++ ((itemRows n (i + 1) more).data ++ rest) := by
      simp only [itemRows, String.data_append, List.append_assoc]
    rw [e]
    obtain ⟨hp, hl⟩ := hall item (by simp)
    exact itemRow_lines n i item _ (by omega) hp hl
      (ih (i + 1) rest (by omega) (fun it hit => hall it (by simp [hit])) hrest)

theorem titleLine_eq (title color : String) (h : len title < 54) :
    titleLine title color =
      "║" ++ spaces (max 1 ((51 - title.utf8ByteSize) / 2))
        ++ printColoredText color title
        ++ spaces (max 1 (52 - (51 - title.utf8ByteSize) / 2 - title.utf8ByteSize)) ++ "║\n" := by
  have hn : title.utf8ByteSize < 54 := by
    simp only [len] at h; omega
  generalize hk : title.utf8ByteSize = k at hn
  have hl : len title = (k : Int) := by simp [len, hk]
  simp only [titleLine, hl]
  interval_cases k <;> rfl

theorem titleLine_lines (title color : String) (rest : List Char) (ht : printable title)
    (hl : len title ≤ 49)
    (hrest : ∀ line ∈ linesAux [] rest, visibleWidth line = 54) :
    ∀ line ∈ linesAux [] ((titleLine title color).data ++ rest), visibleWidth line = 54 := by
  have hk := len_printable title ht
  have hb : title.utf8ByteSize = title.data.length := by
    simp only [len] at hk; exact_mod_cast hk
  have e : (titleLine title color).data ++ rest =
      ('║' :: List.replicate (max 1 ((51 - title.data.length) / 2)) ' ') ++
        ((printColoredText color title).data ++
          (List.replicate
            (max 1 (52 - (51 - title.data.length) / 2 - title.data.length)) ' ' ++ ['║'])) ++
        '\n' :: rest := by
    rw [titleLine_eq title color (by omega), hb]
    simp only [String.data_append, spaces_data, List.append_assoc]
    rfl
  rw [e]
  have h49 : title.data.length ≤ 49 := by omega
  apply colored_line _ _ color title _ _ _ _ _ ht
  · simp only [List.length_cons, List.length_append, List.length_replicate,
      List.length_singleton, List.length_nil]
    omega
  · exact hrest
  · intro h
    rcases List.mem_cons.1 h with h | h
    · exact absurd h (by decide)
    · exact replicate_no _ (by decide) _ h
  · simp only [List.mem_append, List.mem_singleton, not_or]
    exact ⟨replicate_no _ (by decide) _, by decide⟩
  · intro h
    rcases List.mem_cons.1 h with h | h
    · exact absurd h (by decide)
    · exact replicate_no _ (by decide) _ h
  · simp only [List.mem_append, List.mem_singleton, not_or]
    exact ⟨replicate_no _ (by decide) _, by decide⟩

/-- The layout for up to nine items: with a printable ASCII title of at most
49 characters and printable ASCII labels of at most 44 characters, every line
written by `printMenu` is 54 visible characters wide. -/
theorem layout_up_to_nine (title color : String) (items : List MenuItem)
    (ht : printable title) (hl : len title ≤ 49) (hn : items.length ≤ 9)
    (hall : ∀ item ∈ items, printable item.Label ∧ len item.Label ≤ 44) :
    ∀ line ∈ printedLines (printMenu title color items), visibleWidth line = 54 := by
  have e : (printMenu title color items).data =
      topBorder.data ++ ((titleLine title color).data ++ (separator.data ++
        ((itemRows items.length 0 items).data ++ bottomBorder.data))) := by
    simp only [printMenu, String.data_append, List.append_assoc]
  unfold printedLines
  rw [e]
  exact topBorder_line _ (titleLine_lines title color _ ht hl (separator_line _
    (itemRows_lines items.length items 0 _ (by omega) hall bottomBorder_line)))

/-! ## The configuration file -/

theorem char_scalar (c : Char) :
    c.toNat < 0xD800 ∨ (0xDFFF < c.toNat ∧ c.toNat < 0x110000) := by
  have h := c.valid
  simp only [UInt32.isValidChar, Nat.isValidChar] at h
  exact h

theorem decodeRune_two (p0 b1 : Nat) (tail : List Nat) (h0 : 0xC2 ≤ p0 ∧ p0 ≤ 0xDF)
    (h1 : 0x80 ≤ b1 ∧ b1 ≤ 0xBF) :
    decodeRune (p0 :: b1 :: tail) = (p0 % 32 * 64 + b1 % 64, 2) := by
  rw [decodeRune, if_neg (by omega), if_neg (by omega), if_pos (by omega)]
  simp only [if_pos h1]

theorem decodeRune_three (p0 b1 b2 : Nat) (tail : List Nat) (h0 : 0xE0 ≤ p0 ∧ p0 ≤ 0xEF)
    (h1 : 0x80 ≤ b1 ∧ b1 ≤ 0xBF) (hE0 : p0 = 0xE0 → 0xA0 ≤ b1) (hED : p0 = 0xED → b1 ≤ 0x9F)
    (h2 : 0x80 ≤ b2 ∧ b2 ≤ 0xBF) :
    decodeRune (p0 :: b1 :: b2 :: tail) = (p0 % 16 * 4096 + b1 % 64 * 64 + b2 % 64, 3) := by
  rw [decodeRune, if_neg (by omega), if_neg (by omega), if_neg (by omega), if_pos (by omega)]
  have hc : (if p0 = 0xE0 then 0xA0 else 0x80) ≤ b1 ∧ b1 ≤ (if p0 = 0xED then 0x9F else 0xBF)
      ∧ 0x80 ≤ b2 ∧ b2 ≤ 0xBF := by
    refine ⟨?_, ?_, h2.1, h2.2⟩
    · split_ifs with h
      · exact hE0 h
      · exact h1.1
    · split_ifs with h
      · exact hED h
      · exact h1.2
  simp only [if_pos hc]

theorem decodeRune_four (p0 b1 b2 b3 : Nat) (tail : List Nat) (h0 : 0xF0 ≤ p0 ∧ p0 ≤ 0xF4)
    (h1 : 0x80 ≤ b1 ∧ b1 ≤ 0xBF) (hF0 : p0 = 0xF0 → 0x90 ≤ b1) (hF4 : p0 = 0xF4 → b1 ≤ 0x8F)
    (h2 : 0x80 ≤ b2 ∧ b2 ≤ 0xBF) (h3 : 0x80 ≤ b3 ∧ b3 ≤ 0xBF) :
    decodeRune (p0 :: b1 :: b2 :: b3 :: tail) =
      (p0 % 8 * 262144 + b1 % 64 * 4096 + b2 % 64 * 64 + b3 % 64, 4) := by
  rw [decodeRune, if_neg (by omega), if_neg (by omega), if_neg (by omega), if_neg (by omega)]
  have hc : (if p0 = 0xF0 then 0x90 else 0x80) ≤ b1 ∧ b1 ≤ (if p0 = 0xF4 then 0x8F else 0xBF)
      ∧ 0x80 ≤ b2 ∧ b2 ≤ 0xBF ∧ 0x80 ≤ b3 ∧ b3 ≤ 0xBF := by
    refine ⟨?_, ?_, h2.1, h2.2, h3.1, h3.2⟩
    · split_ifs with h
      · exact hF0 h
      · exact h1.1
    · split_ifs with h
      · exact hF4 h
      · exact h1.2
  simp only [if_pos hc]

/-- Decoding the encoding of a code point beyond ASCII gives the code point
and the length of the encoding. -/
theorem decodeRune_encodeRune (r : Nat) (h80 : 0x80 ≤ r)
    (hv : r < 0xD800 ∨ (0xDFFF < r ∧ r < 0x110000)) (tail : List Nat) :
    decodeRune (encodeRune r ++ tail) = (r, (encodeRune r).length) ∧
      2 ≤ (encodeRune r).length ∧ ∃ b bs, encodeRune r = b :: bs ∧ 0xC2 ≤ b := by
  by_cases h1 : r ≤ 0x7FF
  · have e : encodeRune r = [0xC0 + r / 64, 0x80 + r % 64] := by
      unfold encodeRune
      rw [if_neg (by omega), if_pos h1]
    rw [e]
    refine ⟨?_, by simp, _, _, rfl, by omega⟩
    rw [List.cons_append, List.cons_append, List.nil_append,
      decodeRune_two _ _ _ (by omega) (by omega)]
    simp only [List.length_cons, List.length_nil, Prod.mk.injEq, and_true]
    omega
  · by_cases h2 : r ≤ 0xFFFF
    · have e : encodeRune r = [0xE0 + r / 4096, 0x80 + r / 64 % 64, 0x80 + r % 64] := by
        unfold encodeRune
        rw [if_neg (by omega), if_neg h1, if_neg (by omega), if_pos h2]
      rw [e]
      refine ⟨?_, by simp, _, _, rfl, by omega⟩
      rw [List.cons_append, List.cons_append, List.cons_append, List.nil_append,
        decodeRune_three _ _ _ _ (by omega) (by omega) (by omega) (by omega) (by omega)]
      simp only [List.length_cons, List.length_nil, Prod.mk.injEq, and_true]
      omega
    · have e : encodeRune r =
          [0xF0 + r / 262144, 0x80 + r / 4096 % 64, 0x80 + r / 64 % 64, 0x80 + r % 64] := by
        unfold encodeRune
        rw [if_neg (by omega), if_neg h1, if_neg (by omega), if_neg h2]
      rw [e]
      refine ⟨?_, by simp, _, _, rfl, by omega⟩
      rw [List.cons_append, List.cons_append, List.cons_append, List.cons_append,
        List.nil_append,
        decodeRune_four _ _ _ _ _ (by omega) (by omega) (by omega) (by omega) (by omega)
          (by omega)]
      simp only [List.length_cons, List.length_nil, Prod.mk.injEq, and_true]
      omega

theorem encodeRune_ascii (r : Nat) (h : r < 0x80) : encodeRune r = [r] := by
  unfold encodeRune
  rw [if_pos (by omega)]

theorem escapeByte_nonempty (n : Nat) (hn : n < 128) :
    ∃ d ds, escapeByte n = d :: ds ∧ d ≠ '"'.toNat := by
  interval_cases n <;> exact ⟨_, _, rfl, by decide⟩

theorem readChar_escapeByte (n : Nat) (hn : n < 128) (tail : List Nat) :
    readChar (escapeByte n ++ tail) = some ([n], tail) := by
  interval_cases n <;> rfl

/-- The escape of a character is not empty and does not start with a quote. -/
theorem escapeUnit_head (c : Char) :
    ∃ d ds, escapeUnit c = d :: ds ∧ d ≠ '"'.toNat := by
  unfold escapeUnit
  by_cases hs : c.toNat < 0x80
  · rw [if_pos hs]
    exact escapeByte_nonempty _ hs
  · rw [if_neg hs]
    by_cases h2 : c.toNat = 0x2028 ∨ c.toNat = 0x2029
    · rw [if_pos h2]
      exact ⟨_, _, rfl, by decide⟩
    · rw [if_neg h2]
      obtain ⟨_, _, b, bs, e, hb⟩ := decodeRune_encodeRune c.toNat (by omega) (char_scalar c) []
      refine ⟨b, bs, e, ?_⟩
      have : '"'.toNat = 34 := rfl
      omega

/-- Reading back the escape of a character gives its UTF-8 bytes. -/
theorem readChar_escapeUnit (c : Char) (tail : List Nat) :
    readChar (escapeUnit c ++ tail) = some (encodeRune c.toNat, tail) := by
  unfold escapeUnit
  by_cases hs : c.toNat < 0x80
  · rw [if_pos hs, encodeRune_ascii _ hs]
    exact readChar_escapeByte _ hs tail
  · rw [if_neg hs]
    by_cases h2 : c.toNat = 0x2028 ∨ c.toNat = 0x2029
    · rw [if_pos h2]
      rcases h2 with h | h <;> rw [h] <;> rfl
    · rw [if_neg h2]
      obtain ⟨hd, hl, b, bs, e, hb⟩ :=
        decodeRune_encodeRune c.toNat (by omega) (char_scalar c) tail
      have hdrop : (encodeRune c.toNat ++ tail).drop (encodeRune c.toNat).length = tail :=
        List.drop_left _ _
      rw [e] at hd hdrop ⊢
      rw [List.cons_append] at hd hdrop ⊢
      have hq : '"'.toNat = 34 := rfl
      have hb' : '\\'.toNat = 92 := rfl
      have n1 : ¬ b = '\\'.toNat := by omega
      have n2 : ¬ (b = '"'.toNat ∨ b < 0x20) := by omega
      have n3 : ¬ b < 0x80 := by omega
      simp only [readChar, n1, n2, n3, if_false, hd, hdrop]
      rw [e]

theorem escapeUnits_utf8 (cs : List Char) (fuel : Nat) (hf : cs.length ≤ fuel) :
    appendString fuel (utf8Chars cs) = escapeUnits cs := by
  induction cs generalizing fuel with
  | nil => cases fuel <;> rfl
  | cons c cs ih =>
    obtain ⟨k, rfl⟩ : ∃ k, fuel = k + 1 := ⟨fuel - 1, by simp at hf; omega⟩
    have hk : cs.length ≤ k := by simp at hf; omega
    simp only [utf8Chars, escapeUnits, escapeUnit]
    by_cases hs : c.toNat < 0x80
    · rw [if_pos hs, encodeRune_ascii _ hs, List.singleton_append, appendString, if_pos hs,
        ih k hk]
    · rw [if_neg hs]
      obtain ⟨hd, hl, b, bs, e, hb⟩ :=
        decodeRune_encodeRune c.toNat (by omega) (char_scalar c) (utf8Chars cs)
      have hdrop : (encodeRune c.toNat ++ utf8Chars cs).drop (encodeRune c.toNat).length =
          utf8Chars cs := List.drop_left _ _
      have htake : (encodeRune c.toNat ++ utf8Chars cs).take (encodeRune c.toNat).length =
          encodeRune c.toNat := List.take_left _ _
      rw [e] at hd hdrop htake ⊢
      rw [List.cons_append] at hd hdrop htake ⊢
      rw [appendString, if_neg (by omega)]
      simp only [hd]
      have hne : ¬ (c.toNat = 0xFFFD ∧ (b :: bs).length = 1) := by
        rintro ⟨_, h1⟩
        rw [e] at hl
        omega
      rw [if_neg hne]
      by_cases h2 : c.toNat = 0x2028 ∨ c.toNat = 0x2029
      · rw [if_pos h2, if_pos h2, hdrop, ih k hk]
      · rw [if_neg h2, if_neg h2, hdrop, htake, ih k hk]

theorem length_utf8Chars (cs : List Char) : cs.length ≤ (utf8Chars cs).length := by
  induction cs with
  | nil => simp [utf8Chars]
  | cons c cs ih =>
    have : 1 ≤ (encodeRune c.toNat).length := by
      unfold encodeRune
      split_ifs <;> simp
    simp only [utf8Chars, List.length_append, List.length_cons]
    omega

theorem length_escapeUnits (cs : List Char) : cs.length ≤ (escapeUnits cs).length := by
  induction cs with
  | nil => simp [escapeUnits]
  | cons c cs ih =>
    obtain ⟨d, ds, hd, _⟩ := escapeUnit_head c
    simp only [escapeUnits, List.length_append, List.length_cons, hd]
    omega

/-- What `appendString` writes for a valid string. -/
theorem appendString_utf8 (s : String) :
    appendString (utf8 s).length (utf8 s) = escapeUnits s.data :=
  escapeUnits_utf8 s.data _ (length_utf8Chars s.data)

theorem parseStringBody_escapeUnits (cs : List Char) (fuel : Nat) (tail : List Nat)
    (hf : cs.length + 1 ≤ fuel) :
    parseStringBody fuel (escapeUnits cs ++ '"'.toNat :: tail) = some (utf8Chars cs, tail) := by
  induction cs generalizing fuel with
  | nil =>
    obtain ⟨k, rfl⟩ : ∃ k, fuel = k + 1 := ⟨fuel - 1, by omega⟩
    rfl
  | cons c cs ih =>
    obtain ⟨k, rfl⟩ : ∃ k, fuel = k + 1 := ⟨fuel - 1, by omega⟩
    obtain ⟨d, ds, hd, hne⟩ := escapeUnit_head c
    have hr := readChar_escapeUnit c (escapeUnits cs ++ '"'.toNat :: tail)
    simp only [escapeUnits, List.append_assoc, utf8Chars]
    rw [hd] at hr ⊢
    rw [List.cons_append] at hr ⊢
    rw [parseStringBody]
    simp only [if_neg hne, hr]
    rw [ih k (by simp only [List.length_cons] at hf; omega)]

/-- Reading back what `json.Marshal` wrote for a valid string gives the
string. -/
theorem parseString_quote (s : String) (tail : List Nat) :
    parseString (appendString (utf8 s).length (utf8 s) ++ '"'.toNat :: tail) =
      some (utf8 s, tail) := by
  rw [appendString_utf8]
  unfold parseString
  rw [parseStringBody_escapeUnits s.data _ tail]
  · rfl
  · have := length_escapeUnits s.data
    simp only [List.length_append, List.length_cons]
    omega

theorem skipSpace_nonspace (c : Nat) (X : List Nat) (hc : isSpace c = false) :
    skipSpace (c :: X) = c :: X := by
  simp [skipSpace, hc]

theorem skipSpace_blanks (n : Nat) (c : Nat) (X : List Nat) (hc : isSpace c = false) :
    skipSpace (List.replicate n ' '.toNat ++ c :: X) = c :: X := by
  induction n with
  | zero => exact skipSpace_nonspace c X hc
  | succ n ih =>
    rw [List.replicate_succ, List.cons_append, skipSpace]
    have : isSpace ' '.toNat = true := by decide
    rw [if_pos this, ih]

theorem skipSpace_newline (d : Nat) (c : Nat) (X : List Nat) (hc : isSpace c = false) :
    skipSpace (newline d ++ c :: X) = c :: X := by
  rw [newline, List.cons_append, skipSpace]
  have : isSpace '\n'.toNat = true := by decide
  rw [if_pos this, skipSpace_blanks _ c X hc]

theorem skipSpace_blank (c : Nat) (X : List Nat) (hc : isSpace c = false) :
    skipSpace (' '.toNat :: c :: X) = c :: X :=
  skipSpace_blanks 1 c X hc

theorem parseValue_string (f d : Nat) (cs : List Nat) (s : String) (X : List Nat)
    (h : skipSpace cs = '"'.toNat :: (quoted s ++ '"'.toNat :: X)) :
    parseValue (f + 1) d cs = some (.string (utf8 s), X) := by
  rw [parseValue, h]
  simp only [if_true, quoted, parseString_quote]

theorem parseValue_null (f d : Nat) (cs : List Nat) (X : List Nat)
    (h : skipSpace cs = ascii "null" ++ X) :
    parseValue (f + 1) d cs = some (.null, X) := by
  rw [parseValue, h]
  rfl

theorem parseValue_object (f d : Nat) (cs r r2 : List Nat) (ms : List (List Nat × JSON))
    (c : Nat)
    (h1 : skipSpace cs = '\x7b'.toNat :: r) (hd : d + 1 ≤ maxNestingDepth)
    (h2 : ∃ r0, skipSpace r = c :: r0) (hc : c ≠ '\x7d'.toNat)
    (h3 : parseMembers f (d + 1) r = some (ms, r2)) :
    parseValue (f + 1) d cs = some (.object ms, r2) := by
  obtain ⟨r0, h2⟩ := h2
  rw [parseValue, h1]
  have hd2 : ¬ (d + 1 > maxNestingDepth) := by omega
  have n1 : ¬ ('\x7b'.toNat = '"'.toNat) := by decide
  simp only [n1, if_false, if_true, hd2, h2, if_neg hc, h3]

theorem parseValue_array (f d : Nat) (cs r r2 : List Nat) (vs : List JSON)
    (c : Nat)
    (h1 : skipSpace cs = '['.toNat :: r) (hd : d + 1 ≤ maxNestingDepth)
    (h2 : ∃ r0, skipSpace r = c :: r0) (hc : c ≠ ']'.toNat)
    (h3 : parseElems f (d + 1) r = some (vs, r2)) :
    parseValue (f + 1) d cs = some (.array vs, r2) := by
  obtain ⟨r0, h2⟩ := h2
  rw [parseValue, h1]
  have hd2 : ¬ (d + 1 > maxNestingDepth) := by omega
  have n1 : ¬ ('['.toNat = '"'.toNat) := by decide
  have n2 : ¬ ('['.toNat = '\x7b'.toNat) := by decide
  simp only [n1, n2, if_false, if_true, hd2, h2, if_neg hc, h3]

theorem parseValue_empty_array (f d : Nat) (cs r r2 : List Nat)
    (h1 : skipSpace cs = '['.toNat :: r) (hd : d + 1 ≤ maxNestingDepth)
    (h2 : skipSpace r = ']'.toNat :: r2) :
    parseValue (f + 1) d cs = some (.array [], r2) := by
  rw [parseValue, h1]
  have hd2 : ¬ (d + 1 > maxNestingDepth) := by omega
  have n1 : ¬ ('['.toNat = '"'.toNat) := by decide
  have n2 : ¬ ('['.toNat = '\x7b'.toNat) := by decide
  simp only [n1, n2, if_false, if_true, hd2, h2]

theorem parseMembers_more (f d : Nat) (cs : List Nat) (k : String) (r1 r2 : List Nat)
    (v : JSON) (r3 r4 : List Nat)
    (h1 : skipSpace cs = '"'.toNat :: (quoted k ++ '"'.toNat :: r1))
    (h2 : skipSpace r1 = ':'.toNat :: r2) (h3 : parseValue f d r2 = some (v, r3))
    (h4 : skipSpace r3 = ','.toNat :: r4) :
    parseMembers (f + 1) d cs =
      (parseMembers f d r4).map (fun p => ((utf8 k, v) :: p.1, p.2)) := by
  rw [parseMembers, h1]
  simp only [if_true, quoted, parseString_quote, h2, h3, h4]
  cases parseMembers f d r4 <;> rfl

theorem parseMembers_last (f d : Nat) (cs : List Nat) (k : String) (r1 r2 : List Nat)
    (v : JSON) (r3 r4 : List Nat)
    (h1 : skipSpace cs = '"'.toNat :: (quoted k ++ '"'.toNat :: r1))
    (h2 : skipSpace r1 = ':'.toNat :: r2) (h3 : parseValue f d r2 = some (v, r3))
    (h4 : skipSpace r3 = '\x7d'.toNat :: r4) :
    parseMembers (f + 1) d cs = some ([(utf8 k, v)], r4) := by
  rw [parseMembers, h1]
  have n1 : ¬ ('\x7d'.toNat = ','.toNat) := by decide
  simp only [if_true, quoted, parseString_quote, h2, h3, h4, n1, if_false]

theorem parseElems_more (f d : Nat) (cs : List Nat) (v : JSON) (r r2 : List Nat)
    (h1 : parseValue f d cs = some (v, r)) (h2 : skipSpace r = ','.toNat :: r2) :
    parseElems (f + 1) d cs =
      (parseElems f d r2).map (fun p => (v :: p.1, p.2)) := by
  rw [parseElems, h1]
  simp only [h2, if_true]
  cases parseElems f d r2 <;> rfl

theorem parseElems_last (f d : Nat) (cs : List Nat) (v : JSON) (r r2 : List Nat)
    (h1 : parseValue f d cs = some (v, r)) (h2 : skipSpace r = ']'.toNat :: r2) :
    parseElems (f + 1) d cs = some ([v], r2) := by
  rw [parseElems, h1]
  have n1 : ¬ (']'.toNat = ','.toNat) := by decide
  simp only [h2, n1, if_false, if_true]

theorem isSpace_quote : isSpace '"'.toNat = false := by decide
theorem isSpace_colon : isSpace ':'.toNat = false := by decide
theorem isSpace_comma : isSpace ','.toNat = false := by decide
theorem isSpace_lbrace : isSpace '\x7b'.toNat = false := by decide
theorem isSpace_rbrace : isSpace '\x7d'.toNat = false := by decide
theorem isSpace_rbracket : isSpace ']'.toNat = false := by decide

theorem quote_utf8 (s : String) (Y : List Nat) :
    quote (utf8 s) ++ Y = '"'.toNat :: (quoted s ++ '"'.toNat :: Y) := by
  simp only [quote, quoted, List.cons_append, List.append_assoc, List.nil_append]

theorem stringMember_eq (key val : String) (hk : ascii key = utf8 key) (Y : List Nat) :
    stringMember key (utf8 val) ++ Y =
      '"'.toNat :: (quoted key ++ '"'.toNat :: ':'.toNat :: ' '.toNat :: '"'.toNat ::
        (quoted val ++ '"'.toNat :: Y)) := by
  simp only [stringMember, hk, quote, quoted, List.cons_append, List.append_assoc,
    List.nil_append]

theorem stringMember_more (f d j : Nat) (key val : String) (hk : ascii key = utf8 key)
    (Y : List Nat) :
    parseMembers (f + 2) d (newline j ++ (stringMember key (utf8 val) ++ (','.toNat :: Y))) =
      (parseMembers (f + 1) d Y).map (fun p => ((utf8 key, .string (utf8 val)) :: p.1, p.2)) := by
  rw [stringMember_eq key val hk]
  exact parseMembers_more (f + 1) d _ key _ _ (.string (utf8 val)) _ _
    (skipSpace_newline j _ _ isSpace_quote)
    (skipSpace_nonspace _ _ isSpace_colon)
    (parseValue_string f d _ val _ (skipSpace_blank _ _ isSpace_quote))
    (skipSpace_nonspace _ _ isSpace_comma)

theorem stringMember_last (f d j i : Nat) (key val : String) (hk : ascii key = utf8 key)
    (Y : List Nat) :
    parseMembers (f + 2) d
        (newline j ++ (stringMember key (utf8 val) ++ (newline i ++ ('\x7d'.toNat :: Y)))) =
      some ([(utf8 key, .string (utf8 val))], Y) := by
  rw [stringMember_eq key val hk]
  exact parseMembers_last (f + 1) d _ key _ _ (.string (utf8 val)) _ _
    (skipSpace_newline j _ _ isSpace_quote)
    (skipSpace_nonspace _ _ isSpace_colon)
    (parseValue_string f d _ val _ (skipSpace_blank _ _ isSpace_quote))
    (skipSpace_newline i _ _ isSpace_rbrace)

theorem parseValue_item (f d : Nat) (cs : List Nat) (item : MenuItem) (X : List Nat)
    (hd : d + 1 ≤ maxNestingDepth) (h : skipSpace cs = encodeItem item.toGo ++ X) :
    parseValue (f + 5) d cs = some (itemJSON item, X) := by
  have e : encodeItem item.toGo ++ X =
      '\x7b'.toNat :: (newline 3 ++ (stringMember "label" (utf8 item.Label) ++ (','.toNat ::
        (newline 3 ++ (stringMember "color" (utf8 item.Color) ++ (','.toNat ::
          (newline 3 ++ (stringMember "command" (utf8 item.Command) ++
            (newline 2 ++ ('\x7d'.toNat :: X)))))))))) := by
    simp only [encodeItem, MenuItem.toGo, List.append_assoc, List.cons_append, List.nil_append]
  rw [e] at h
  have kl : ascii "label" = utf8 "label" := rfl
  have kc : ascii "color" = utf8 "color" := rfl
  have km : ascii "command" = utf8 "command" := rfl
  apply parseValue_object (f + 4) d cs _ X _ '"'.toNat h hd
  · rw [stringMember_eq "label" _ kl]
    exact ⟨_, skipSpace_newline 3 _ _ isSpace_quote⟩
  · decide
  · rw [stringMember_more (f + 2) _ _ "label" _ kl, stringMember_more (f + 1) _ _ "color" _ kc,
      stringMember_last f _ _ _ "command" _ km]
    rfl

theorem encodeItem_head (item : GoMenuItem) (Y : List Nat) :
    encodeItem item ++ Y = '\x7b'.toNat :: ((encodeItem item).tail ++ Y) := by
  simp only [encodeItem, List.cons_append, List.tail_cons]

theorem parseElems_items (d : Nat) (hd : d + 1 ≤ maxNestingDepth) (rest : List MenuItem) :
    ∀ (f : Nat) (item : MenuItem) (X : List Nat),
      parseElems (f + rest.length + 6) d
          (encodeItemList item.toGo (rest.map MenuItem.toGo) ++ X) =
        some ((item :: rest).map itemJSON, X) := by
  induction rest with
  | nil =>
    intro f item X
    have e : encodeItemList item.toGo ([].map MenuItem.toGo) ++ X =
        newline 2 ++ (encodeItem item.toGo ++ (newline 1 ++ (']'.toNat :: X))) := by
      simp only [List.map_nil, encodeItemList, List.append_assoc, List.cons_append,
        List.nil_append]
    rw [e]
    refine parseElems_last (f + 5) d _ (itemJSON item) (newline 1 ++ (']'.toNat :: X)) X ?_ ?_
    · apply parseValue_item f d _ item _ hd
      rw [encodeItem_head]
      exact skipSpace_newline 2 _ _ isSpace_lbrace
    · exact skipSpace_newline 1 _ _ isSpace_rbracket
  | cons next rest ih =>
    intro f item X
    have e : encodeItemList item.toGo ((next :: rest).map MenuItem.toGo) ++ X =
        newline 2 ++ (encodeItem item.toGo ++
          (','.toNat :: (encodeItemList next.toGo (rest.map MenuItem.toGo) ++ X))) := by
      simp only [List.map_cons, encodeItemList, List.append_assoc, List.cons_append,
        List.nil_append]
    rw [e]
    have hv : parseValue (f + rest.length + 6) d
        (newline 2 ++ (encodeItem item.toGo ++
          (','.toNat :: (encodeItemList next.toGo (rest.map MenuItem.toGo) ++ X)))) =
        some (itemJSON item,
          ','.toNat :: (encodeItemList next.toGo (rest.map MenuItem.toGo) ++ X)) :=
      parseValue_item (f + rest.length + 1) d _ item _ hd (by
        rw [encodeItem_head]
        exact skipSpace_newline 2 _ _ isSpace_lbrace)
    have := parseElems_more (f + rest.length + 6) d _ (itemJSON item) _
      (encodeItemList next.toGo (rest.map MenuItem.toGo) ++ X) hv
      (skipSpace_nonspace _ _ isSpace_comma)
    simp only [List.length_cons]
    rw [show f + (rest.length + 1) + 6 = f + rest.length + 6 + 1 by omega, this, ih f next X]
    rfl

theorem parseValue_title (f : Nat) (cs : List Nat) (t : MenuTitle) (X : List Nat)
    (h : skipSpace cs = encodeTitle ⟨utf8 t.Label, utf8 t.Color⟩ ++ X) :
    parseValue (f + 4) 1 cs = some (titleJSON t, X) := by
  have e : encodeTitle ⟨utf8 t.Label, utf8 t.Color⟩ ++ X =
      '\x7b'.toNat :: (newline 2 ++ (stringMember "label" (utf8 t.Label) ++ (','.toNat ::
        (newline 2 ++ (stringMember "color" (utf8 t.Color) ++
          (newline 1 ++ ('\x7d'.toNat :: X))))))) := by
    simp only [encodeTitle, List.append_assoc, List.cons_append, List.nil_append]
  rw [e] at h
  have kl : ascii "label" = utf8 "label" := rfl
  have kc : ascii "color" = utf8 "color" := rfl
  apply parseValue_object (f + 3) 1 cs _ X _ '"'.toNat h (by decide)
  · rw [stringMember_eq "label" _ kl]
    exact ⟨_, skipSpace_newline 2 _ _ isSpace_quote⟩
  · decide
  · rw [stringMember_more (f + 1) _ _ "label" _ kl, stringMember_last f _ _ _ "color" _ kc]
    rfl

theorem parseValue_items (f : Nat) (nilSlice : Bool) (items : List MenuItem)
    (cs X : List Nat)
    (h : skipSpace cs = encodeItems nilSlice (items.map MenuItem.toGo) ++ X) :
    parseValue (f + items.length + 7) 1 cs = some (itemsJSON nilSlice items, X) := by
  cases items with
  | nil =>
    cases nilSlice with
    | true => exact parseValue_null _ 1 cs X h
    | false =>
      exact parseValue_empty_array _ 1 cs (']'.toNat :: X) X h (by decide)
        (skipSpace_nonspace _ X isSpace_rbracket)
  | cons item rest =>
    have e : encodeItems nilSlice ((item :: rest).map MenuItem.toGo) ++ X =
        '['.toNat :: (encodeItemList item.toGo (rest.map MenuItem.toGo) ++ X) := by
      simp only [List.map_cons, encodeItems, List.cons_append]
    rw [e] at h
    have hl : (item :: rest).length = rest.length + 1 := rfl
    rw [hl, show f + (rest.length + 1) + 7 = (f + 1) + rest.length + 6 + 1 by omega]
    apply parseValue_array _ 1 cs _ X _ '\x7b'.toNat h (by decide)
    · cases rest <;>
        simp only [List.map_nil, List.map_cons, encodeItemList, encodeItem, List.append_assoc,
          List.cons_append] <;>
        exact ⟨_, skipSpace_newline 2 _ _ isSpace_lbrace⟩
    · decide
    · exact parseElems_items 2 (by decide) rest (f + 1) item X

/-- Parsing the text of `MarshalIndent` for a menu given as text gives its
JSON value and leaves nothing. -/
theorem parseValue_menu (f : Nat) (nilSlice : Bool) (m : Menu) :
    parseValue (f + m.Items.length + 10) 0 (MarshalIndent nilSlice m.toGo) =
      some (menuJSON nilSlice m, []) := by
  have e : MarshalIndent nilSlice m.toGo =
      '\x7b'.toNat :: (newline 1 ++ '"'.toNat :: (quoted "title" ++ '"'.toNat :: ':'.toNat ::
        ' '.toNat :: (encodeTitle ⟨utf8 m.Title.Label, utf8 m.Title.Color⟩ ++ (','.toNat ::
          (newline 1 ++ '"'.toNat :: (quoted "items" ++ '"'.toNat :: ':'.toNat :: ' '.toNat ::
            (encodeItems nilSlice (m.Items.map MenuItem.toGo) ++
              (newline 0 ++ ['\x7d'.toNat])))))))) := by
    have h1 : ascii "title" = utf8 "title" := rfl
    have h2 : ascii "items" = utf8 "items" := rfl
    simp only [MarshalIndent, Menu.toGo, h1, h2, quote, quoted, List.append_assoc,
      List.cons_append, List.nil_append]
  rw [e]
  apply parseValue_object (f + m.Items.length + 9) 0 _ _ [] _ '"'.toNat
    (skipSpace_nonspace _ _ isSpace_lbrace) (by decide)
    ⟨_, skipSpace_newline 1 _ _ isSpace_quote⟩ (by decide)
  have h3 : parseValue (f + m.Items.length + 8) 1
      (' '.toNat :: (encodeTitle ⟨utf8 m.Title.Label, utf8 m.Title.Color⟩ ++ (','.toNat ::
        (newline 1 ++ '"'.toNat :: (quoted "items" ++ '"'.toNat :: ':'.toNat :: ' '.toNat ::
          (encodeItems nilSlice (m.Items.map MenuItem.toGo) ++
            (newline 0 ++ ['\x7d'.toNat]))))))) =
      some (titleJSON m.Title, _) :=
    parseValue_title (f + m.Items.length + 4) _ m.Title _ (by
      have : ∀ (t : GoMenuTitle) (Y : List Nat),
          encodeTitle t ++ Y = '\x7b'.toNat :: ((encodeTitle t).tail ++ Y) := by
        intro t Y; simp only [encodeTitle, List.cons_append, List.tail_cons]
      rw [this]
      exact skipSpace_blank _ _ isSpace_lbrace)
  rw [parseMembers_more (f + m.Items.length + 8) 1 _ "title" _ _ (titleJSON m.Title) _ _
    (skipSpace_newline 1 _ _ isSpace_quote)
    (skipSpace_nonspace _ _ isSpace_colon) h3
    (skipSpace_nonspace _ _ isSpace_comma)]
  have h4 : parseValue (f + m.Items.length + 7) 1
      (' '.toNat :: (encodeItems nilSlice (m.Items.map MenuItem.toGo) ++
        (newline 0 ++ ['\x7d'.toNat]))) =
      some (itemsJSON nilSlice m.Items, newline 0 ++ ['\x7d'.toNat]) :=
    parseValue_items f nilSlice m.Items _ _ (by
      have : ∃ c Y, encodeItems nilSlice (m.Items.map MenuItem.toGo) ++
          (newline 0 ++ ['\x7d'.toNat]) = c :: Y ∧ isSpace c = false := by
        cases m.Items with
        | nil => cases nilSlice <;> exact ⟨_, _, rfl, by decide⟩
        | cons item rest => exact ⟨_, _, rfl, by decide⟩
      obtain ⟨c, Y, hY, hc⟩ := this
      rw [hY]
      exact skipSpace_blank c Y hc)
  rw [parseMembers_last (f + m.Items.length + 7) 1 _ "items" _ _ (itemsJSON nilSlice m.Items) _ _
    (skipSpace_newline 1 _ _ isSpace_quote)
    (skipSpace_nonspace _ _ isSpace_colon) h4
    (skipSpace_newline 0 _ _ isSpace_rbrace)]
  rfl

theorem decodeItem_itemJSON (old : GoMenuItem) (item : MenuItem) :
    decodeItem old (itemJSON item) = some item.toGo := by
  have h1 : fieldIs "label" (utf8 "label") = true := by decide
  have h2 : fieldIs "label" (utf8 "color") = false := by decide
  have h3 : fieldIs "color" (utf8 "color") = true := by decide
  have h4 : fieldIs "label" (utf8 "command") = false := by decide
  have h5 : fieldIs "color" (utf8 "command") = false := by decide
  have h6 : fieldIs "command" (utf8 "command") = true := by decide
  simp [decodeItem, itemJSON, decodeItemMembers, decodeString, h1, h2, h3, h4, h5, h6,
    MenuItem.toGo]

theorem decodeItemList_map (items : List MenuItem) :
    decodeItemList [] (items.map itemJSON) = some (items.map MenuItem.toGo) := by
  induction items with
  | nil => rfl
  | cons item rest ih =>
    simp only [List.map_cons, decodeItemList, List.tail_nil, decodeItem_itemJSON, ih]

theorem decodeItems_itemsJSON (nilSlice : Bool) (items : List MenuItem) :
    ∃ backing, decodeItems ⟨[], []⟩ (itemsJSON nilSlice items) =
      some ⟨items.map MenuItem.toGo, backing⟩ := by
  cases items with
  | nil => cases nilSlice <;> exact ⟨_, rfl⟩
  | cons item rest =>
    have := decodeItemList_map (item :: rest)
    simp only [List.map_cons] at this
    simp only [itemsJSON, List.map_cons, decodeItems, this]
    exact ⟨_, rfl⟩

theorem decodeTitle_titleJSON (old : GoMenuTitle) (t : MenuTitle) :
    decodeTitle old (titleJSON t) = some ⟨utf8 t.Label, utf8 t.Color⟩ := by
  have h1 : fieldIs "label" (utf8 "label") = true := by decide
  have h2 : fieldIs "label" (utf8 "color") = false := by decide
  have h3 : fieldIs "color" (utf8 "color") = true := by decide
  simp [decodeTitle, titleJSON, decodeTitleMembers, decodeString, h1, h2, h3]

theorem decodeMenu_menuJSON (nilSlice : Bool) (m : Menu) :
    decodeMenu (menuJSON nilSlice m) = some m.toGo := by
  have h1 : fieldIs "title" (utf8 "title") = true := by decide
  have h2 : fieldIs "title" (utf8 "items") = false := by decide
  have h3 : fieldIs "items" (utf8 "items") = true := by decide
  obtain ⟨backing, hb⟩ := decodeItems_itemsJSON nilSlice m.Items
  simp [decodeMenu, menuJSON, decodeMenuMembers, h1, h2, h3, decodeTitle_titleJSON, hb,
    Menu.toGo]

theorem length_encodeItemList (item : GoMenuItem) (rest : List GoMenuItem) :
    rest.length + 1 ≤ (encodeItemList item rest).length := by
  induction rest generalizing item with
  | nil => simp [encodeItemList, newline]
  | cons next rest ih =>
    have := ih next
    simp only [encodeItemList, List.length_append, List.length_cons]
    omega

theorem length_encodeItems (nilSlice : Bool) (items : List GoMenuItem) :
    items.length ≤ (encodeItems nilSlice items).length := by
  cases items with
  | nil => simp
  | cons item rest =>
    have := length_encodeItemList item rest
    simp only [encodeItems, List.length_cons]
    omega

theorem length_MarshalIndent (nilSlice : Bool) (m : GoMenu) :
    m.Items.length + 4 ≤ (MarshalIndent nilSlice m).length := by
  have := length_encodeItems nilSlice m.Items
  simp only [MarshalIndent, List.length_append, List.length_cons, quote, newline]
  omega

theorem parseJSON_MarshalIndent (nilSlice : Bool) (m : Menu) :
    parseJSON (MarshalIndent nilSlice m.toGo) = some (menuJSON nilSlice m) := by
  have hl := length_MarshalIndent nilSlice m.toGo
  have hi : m.toGo.Items.length = m.Items.length := by simp [Menu.toGo]
  obtain ⟨f, hf⟩ : ∃ f, 2 * (MarshalIndent nilSlice m.toGo).length + 2 =
      f + m.Items.length + 10 :=
    ⟨2 * (MarshalIndent nilSlice m.toGo).length + 2 - m.Items.length - 10, by omega⟩
  unfold parseJSON
  rw [hf, parseValue_menu f nilSlice m]
  rfl

/-- Decoding what `MarshalIndent` writes for a menu given as text gives the
menu back. -/
theorem Unmarshal_MarshalIndent (nilSlice : Bool) (m : Menu) :
    Unmarshal (MarshalIndent nilSlice m.toGo) = some m.toGo := by
  unfold Unmarshal
  rw [parseJSON_MarshalIndent]
  exact decodeMenu_menuJSON nilSlice m

theorem items_of_valid (items : List GoMenuItem)
    (h : ∀ item ∈ items, validUTF8 item.Label ∧ validUTF8 item.Color ∧ validUTF8 item.Command) :
    ∃ texts : List MenuItem, items = texts.map MenuItem.toGo := by
  induction items with
  | nil => exact ⟨[], rfl⟩
  | cons item rest ih =>
    obtain ⟨texts, ht⟩ := ih (fun it hit => h it (by simp [hit]))
    obtain ⟨⟨l, hl⟩, ⟨c, hc⟩, ⟨m, hm⟩⟩ := h item (by simp)
    refine ⟨⟨l, c, m⟩ :: texts, ?_⟩
    simp only [List.map_cons, MenuItem.toGo, ← hl, ← hc, ← hm, ← ht]

/-- A menu whose strings are valid UTF-8 is the Go value of a menu given as
text. -/
theorem menu_of_valid (menu : GoMenu) (h : menu.valid) : ∃ m : Menu, menu = m.toGo := by
  obtain ⟨⟨l, hl⟩, ⟨c, hc⟩, hitems⟩ := h
  obtain ⟨texts, ht⟩ := items_of_valid menu.Items hitems
  refine ⟨⟨⟨l, c⟩, texts⟩, ?_⟩
  cases menu with
  | mk title items =>
    cases title with
    | mk tl tc =>
      simp only at hl hc ht
      simp only [Menu.toGo, hl, hc, ht]

theorem written_saveMenu (filePath : List Nat) (nilSlice : Bool) (menu : GoMenu) :
    written filePath (saveMenu filePath nilSlice menu false).1 =
      some (MarshalIndent nilSlice menu) := by
  simp [saveMenu, written]

/-- C8, counterexample: a menu whose title label is the byte `0xFF` is written
with the label `\ufffd` and loads with the label U+FFFD, three other bytes. -/
theorem invalid_label_comes_back_changed :
    loadMenu (written (ascii "config.json")
        (saveMenu (ascii "config.json") false brokenTitle false).1) =
      .ok ⟨⟨[0xEF, 0xBF, 0xBD], ascii "blue"⟩, []⟩ ∧
    (⟨⟨[0xEF, 0xBF, 0xBD], ascii "blue"⟩, []⟩ : GoMenu) ≠ brokenTitle :=
  ⟨rfl, by decide⟩

/-- C8, amended: for every menu whose strings are valid UTF-8, loading the
file that `saveMenu` writes gives the menu back, with the same title label and
colour and the same items in the same order, whether its item slice is nil or
not; in particular the file written by `createExampleMenu` loads to the
example menu. -/
theorem config_round_trip (filePath : List Nat) (nilSlice : Bool) (menu : GoMenu)
    (h : menu.valid) :
    loadMenu (written filePath (saveMenu filePath nilSlice menu false).1) = .ok menu ∧
    loadMenu (some (MarshalIndent nilSlice menu)) = .ok menu ∧
    loadMenu (written filePath (createExampleMenu filePath false)) = .ok exampleMenu.toGo ∧
    exampleMenu.toGo =
      ⟨⟨ascii "My Menu", ascii "blue"⟩, [⟨ascii "Option 1", ascii "green", ascii "ls -lha"⟩]⟩ := by
  have hl : ∀ (ns : Bool) (m : Menu), loadMenu (some (MarshalIndent ns m.toGo)) = .ok m.toGo := by
    intro ns m
    simp only [loadMenu, Unmarshal_MarshalIndent]
  obtain ⟨m, rfl⟩ := menu_of_valid menu h
  refine ⟨?_, hl nilSlice m, ?_, by decide⟩
  · rw [written_saveMenu, hl]
  · rw [createExampleMenu, written_saveMenu, hl]

theorem config_round_trip_witness :
    loadMenu (written (ascii "config.json")
        (saveMenu (ascii "config.json") false exampleMenu.toGo false).1) = .ok exampleMenu.toGo ∧
    loadMenu (some (MarshalIndent false exampleMenu.toGo)) = .ok exampleMenu.toGo ∧
    loadMenu (written (ascii "config.json") (createExampleMenu (ascii "config.json") false)) =
      .ok exampleMenu.toGo ∧
    exampleMenu.toGo =
      ⟨⟨ascii "My Menu", ascii "blue"⟩, [⟨ascii "Option 1", ascii "green", ascii "ls -lha"⟩]⟩ :=
  config_round_trip (ascii "config.json") false exampleMenu.toGo
    ⟨⟨"My Menu", rfl⟩, ⟨"blue", rfl⟩, by
      intro item hi
      simp only [exampleMenu, Menu.toGo, List.map_cons, List.map_nil, List.mem_singleton] at hi
      subst hi
      exact ⟨⟨"Option 1", rfl⟩, ⟨"green", rfl⟩, ⟨"ls -lha", rfl⟩⟩⟩

end CliMenu
